import Mathlib

/-!
# elshi: a shallow embedding of the LC-3 interpreter

The Go packages `internal/register`, `internal/opcodes` and `internal/vm` are
embedded as Lean functions.

* A `uint16` is a `Nat`; every operation that can overflow carries an explicit
  `% 65536`.  `WF` records that every word of a state is below `65536`.
* A Go array access is bounds checked: an index outside the array is the run-time
  fault `Fault.indexOutOfRange`.  The register file has 8 words and the memory
  array is declared `[^uint16(0)]uint16`, that is 65535 words.
* `os.Exit` is the fault `Fault.osExit`.
* The console is explicit: standard input is the list of results of the successive
  `scanner.Scan()` calls, standard output the list of code points printed (`fmtC`
  is what `%c` prints).
* `trap` returns, besides the state and the console, the addresses of the
  `ReadMemory` calls it made; `executeInstruction` drops that list.
-/

namespace Elshi

/-- A run-time event that ends a Go call without a result. -/
inductive Fault where
  /-- Go run-time panic `index out of range [index] with length length`. -/
  | indexOutOfRange (index length : Nat)
  /-- Process termination `os.Exit(code)`, with the standard output written so far. -/
  | osExit (code : Nat) (stdout : List Nat)
  /-- The iteration budget of a modelled loop ran out; `trap` never ends this way
  (`trap_ne_fuel`). -/
  | fuelExhausted
  deriving DecidableEq, Repr

/-! ## package register -/

namespace register

/-- Go: `Pos uint16 = 1 << iota` with `iota = 0`. -/
def Pos : Nat := 1 <<< 0
/-- Go: `Zro = 1 << iota` with `iota = 1`. -/
def Zro : Nat := 1 <<< 1
/-- Go: `Neg = 1 << iota` with `iota = 2`. -/
def Neg : Nat := 1 <<< 2

/-- Keyboard status register address. -/
def Kbsr : Nat := 0xFE00
/-- Keyboard data register address. -/
def Kbdr : Nat := 0xFE02

/-- Go: `type Registers struct { regs [8]uint16; PC uint16; cond uint16 }`.
The array `regs` is a function on indices; `Get` and `Update` check the bound. -/
structure Registers where
  regs : Nat → Nat
  PC : Nat
  cond : Nat

/-- Go: `NewRegisters`. -/
def NewRegisters : Registers :=
  { regs := fun _ => 0, PC := 0x3000, cond := Zro }

/-- Go: `Registers.Get`, the bounds-checked read `r.regs[index]`. -/
def Registers.Get (r : Registers) (index : Nat) : Except Fault Nat :=
  if index < 8 then .ok (r.regs index) else .error (.indexOutOfRange index 8)

/-- Go: `Registers.GetConditionRegister`. -/
def Registers.GetConditionRegister (r : Registers) : Nat := r.cond

/-- Go: `Registers.Update`, the bounds-checked write `r.regs[index] = value`. -/
def Registers.Update (r : Registers) (index value : Nat) : Except Fault Registers :=
  if index < 8 then
    .ok { r with regs := fun j => if j = index then value else r.regs j }
  else .error (.indexOutOfRange index 8)

/-- Go: `Registers.UpdateConditionRegister`. -/
def Registers.UpdateConditionRegister (r : Registers) (reg : Nat) : Except Fault Registers := do
  let a ← r.Get reg
  if a = 0 then
    pure { r with cond := Zro }
  else
    let b ← r.Get reg
    if b >>> 15 ≠ 0 then
      pure { r with cond := Neg }
    else
      pure { r with cond := Pos }

end register

/-! ## package opcodes -/

namespace opcodes

def BR : Nat := 0
def ADD : Nat := 1
def LD : Nat := 2
def ST : Nat := 3
def JSR : Nat := 4
def AND : Nat := 5
def LDR : Nat := 6
def STR : Nat := 7
def RTI : Nat := 8
def NOT : Nat := 9
def LDI : Nat := 10
def STI : Nat := 11
def JMP : Nat := 12
def RES : Nat := 13
def LEA : Nat := 14
def TRAP : Nat := 15
def UNKNOWN : Nat := 16

/-- Go: `GetOpCode`, a switch on `instruction >> 12`. -/
def GetOpCode (instruction : Nat) : Nat :=
  let top := instruction >>> 12
  if top = 0 then BR
  else if top = 1 then ADD
  else if top = 2 then LD
  else if top = 3 then ST
  else if top = 4 then JSR
  else if top = 5 then AND
  else if top = 6 then LDR
  else if top = 7 then STR
  else if top = 8 then RTI
  else if top = 9 then NOT
  else if top = 10 then LDI
  else if top = 11 then STI
  else if top = 12 then JMP
  else if top = 13 then RES
  else if top = 14 then LEA
  else if top = 15 then TRAP
  else UNKNOWN

end opcodes

/-! ## the console -/

/-- What one `scanner.Scan()` on a fresh `bufio.Scanner` over standard input leaves
behind: the bytes of `scanner.Text()` and whether `scanner.Err()` is non-nil. -/
structure Scan where
  text : List Nat
  failed : Bool
  deriving DecidableEq, Repr

/-- The process console: the results of the scans still to come, the code points
written to standard output, and the number of lines written to standard error. -/
structure Console where
  stdin : List Scan
  stdout : List Nat
  stderr : Nat
  deriving DecidableEq, Repr

/-- One `scanner.Scan()`: at end of input the text is empty and there is no error. -/
def Console.scan (tty : Console) : Scan × Console :=
  match tty.stdin with
  | [] => ({ text := [], failed := false }, tty)
  | s :: rest => (s, { tty with stdin := rest })

/-- Go: `fmt.Printf` of the given code points. -/
def Console.print (tty : Console) (cs : List Nat) : Console :=
  { tty with stdout := tty.stdout ++ cs }

/-- Go: `if err := scanner.Err(); err != nil { fmt.Fprintln(os.Stderr, ...) }`. -/
def Console.report (tty : Console) (s : Scan) : Console :=
  if s.failed then { tty with stderr := tty.stderr + 1 } else tty

/-! ## package vm -/

/-- Go: `^uint16(0)`, the declared length of the memory array. -/
def memoryLen : Nat := 0xFFFF

/-- Go: `type VM struct { registers register.Registers; memory [^uint16(0)]uint16 }`. -/
structure VM where
  registers : register.Registers
  memory : Nat → Nat

/-- Every word of the state is a `uint16`. -/
def WF (vm : VM) : Prop :=
  (∀ i, vm.registers.regs i < 65536) ∧ vm.registers.PC < 65536 ∧
    vm.registers.cond < 65536 ∧ ∀ a, vm.memory a < 65536

/-- Go: the bounds-checked array write `v.memory[address] = value`. -/
def VM.WriteMemory (v : VM) (address value : Nat) : Except Fault VM :=
  if address < memoryLen then
    .ok { v with memory := fun a => if a = address then value else v.memory a }
  else .error (.indexOutOfRange address memoryLen)

/-- Go: `VM.handleKeyboard`.  `scanner.Text()[0]` faults on an empty text. -/
def VM.handleKeyboard (v : VM) (tty : Console) : Except Fault (VM × Console) :=
  let (s, tty1) := tty.scan
  let tty2 := tty1.report s
  match s.text with
  | [] => .error (.indexOutOfRange 0 0)
  | read :: _ =>
    if read ≠ 0 then do
      let v1 ← v.WriteMemory register.Kbsr (1 <<< 15)
      let v2 ← v1.WriteMemory register.Kbdr read
      pure (v2, tty2)
    else do
      let v1 ← v.WriteMemory register.Kbsr 0
      pure (v1, tty2)

/-- Go: `VM.ReadMemory`: a poll of the keyboard when `index` is `Kbsr`, then the
bounds-checked array read `v.memory[index]`. -/
def VM.ReadMemory (v : VM) (tty : Console) (index : Nat) : Except Fault (Nat × VM × Console) := do
  let (v1, tty1) ← if index = register.Kbsr then v.handleKeyboard tty else pure (v, tty)
  if index < memoryLen then
    pure (v1.memory index, v1, tty1)
  else
    .error (.indexOutOfRange index memoryLen)

/-- Go: `signExtend(x uint16, bitCount uint8) uint16`.  `bitCount-1` is computed in
`uint8` and `0xFFFF << bitCount` in `uint16`. -/
def signExtend (x bitCount : Nat) : Nat :=
  if (x >>> ((bitCount + 255) % 256)) &&& 1 ≠ 0 then
    x ||| ((0xFFFF <<< bitCount) % 65536)
  else x

/-- Assign the program counter. -/
def VM.setPC (vm : VM) (pc : Nat) : VM :=
  { vm with registers := { vm.registers with PC := pc } }

/-- Go: `br`. -/
def br (instruction : Nat) (vm : VM) : Except Fault VM :=
  let pcOffset := signExtend (instruction &&& 0x1ff) 9
  let conditionFlag := (instruction >>> 9) &&& 0x7
  if conditionFlag &&& vm.registers.GetConditionRegister ≠ 0 then
    pure (vm.setPC pcOffset)
  else pure vm

/-- Go: `add`. -/
def add (instruction : Nat) (vm : VM) : Except Fault VM := do
  let dest := (instruction >>> 9) &&& 0x7
  let source1 := (instruction >>> 6) &&& 0x7
  let immediateFlag := (instruction >>> 5) &&& 0x1
  let value ←
    if immediateFlag = 1 then do
      let immediate := signExtend (instruction &&& 0x1f) 5
      let a ← vm.registers.Get source1
      pure ((a + immediate) % 65536)
    else do
      let source2 := instruction &&& 0x7
      let a ← vm.registers.Get source1
      let b ← vm.registers.Get source2
      pure ((a + b) % 65536)
  let r1 ← vm.registers.Update dest value
  let r2 ← r1.UpdateConditionRegister dest
  pure { vm with registers := r2 }

/-- Go: `ld`. -/
def ld (instruction : Nat) (vm : VM) (tty : Console) : Except Fault (VM × Console) := do
  let dest := (instruction >>> 9) &&& 0x7
  let pcOffset := signExtend (instruction &&& 0x1ff) 9
  let mem := (pcOffset + vm.registers.PC) % 65536
  let (value, vm1, tty1) ← vm.ReadMemory tty mem
  let r1 ← vm1.registers.Update dest value
  let r2 ← r1.UpdateConditionRegister dest
  pure ({ vm1 with registers := r2 }, tty1)

/-- Go: `st`. -/
def st (instruction : Nat) (vm : VM) : Except Fault VM := do
  let source := (instruction >>> 9) &&& 0x7
  let pcOffset := signExtend (instruction &&& 0x1ff) 9
  let val := (vm.registers.PC + pcOffset) % 65536
  let x ← vm.registers.Get source
  vm.WriteMemory val x

/-- Go: `jsr`. -/
def jsr (instruction : Nat) (vm : VM) : Except Fault VM := do
  let baseRegister := (instruction >>> 6) &&& 0x7
  let longPcOffset := signExtend (instruction &&& 0x7ff) 11
  let longFlag := (instruction >>> 11) &&& 1
  let r1 ← vm.registers.Update 7 vm.registers.PC
  let vm1 : VM := { vm with registers := r1 }
  if longFlag ≠ 0 then
    let value := (vm1.registers.PC + longPcOffset) % 65536
    pure (vm1.setPC value)
  else do
    let x ← vm1.registers.Get baseRegister
    pure (vm1.setPC x)

/-- Go: `and`. -/
def and (instruction : Nat) (vm : VM) : Except Fault VM := do
  let dest := (instruction >>> 9) &&& 0x7
  let source1 := (instruction >>> 6) &&& 0x7
  let immediateFlag := (instruction >>> 5) &&& 0x1
  let value ←
    if immediateFlag = 1 then do
      let immediate := signExtend (instruction &&& 0x1f) 5
      let a ← vm.registers.Get source1
      pure (a &&& immediate)
    else do
      let source2 := instruction &&& 0x7
      let a ← vm.registers.Get source1
      let b ← vm.registers.Get source2
      pure (a &&& b)
  let r1 ← vm.registers.Update dest value
  let r2 ← r1.UpdateConditionRegister dest
  pure { vm with registers := r2 }

/-- Go: `ldr`. -/
def ldr (instruction : Nat) (vm : VM) (tty : Console) : Except Fault (VM × Console) := do
  let dest := (instruction >>> 9) &&& 0x7
  let baseRegister := (instruction >>> 6) &&& 0x7
  let offset := signExtend (instruction &&& 0x3f) 6
  let b ← vm.registers.Get baseRegister
  let value := (b + offset) % 65536
  let (memValue, vm1, tty1) ← vm.ReadMemory tty value
  let r1 ← vm1.registers.Update dest memValue
  let r2 ← r1.UpdateConditionRegister dest
  pure ({ vm1 with registers := r2 }, tty1)

/-- Go: `str`. -/
def str (instruction : Nat) (vm : VM) : Except Fault VM := do
  let dest := (instruction >>> 9) &&& 0x7
  let baseRegister := (instruction >>> 6) &&& 0x7
  let offset := signExtend (instruction &&& 0x3f) 6
  let b ← vm.registers.Get baseRegister
  let value := (b + offset) % 65536
  let x ← vm.registers.Get dest
  vm.WriteMemory value x

/-- Go: `rti`, an empty body. -/
def rti (_instruction : Nat) (vm : VM) : Except Fault VM := pure vm

/-- Go: `not`; `^x` on a `uint16` flips its 16 bits. -/
def not (instruction : Nat) (vm : VM) : Except Fault VM := do
  let dest := (instruction >>> 9) &&& 0x7
  let source := (instruction >>> 6) &&& 0x7
  let x ← vm.registers.Get source
  let r1 ← vm.registers.Update dest ((x ^^^ 0xFFFF) % 65536)
  let r2 ← r1.UpdateConditionRegister dest
  pure { vm with registers := r2 }

/-- Go: `ldi`. -/
def ldi (instruction : Nat) (vm : VM) (tty : Console) : Except Fault (VM × Console) := do
  let dest := (instruction >>> 9) &&& 0x7
  let pcOffset := signExtend (instruction &&& 0x1ff9) 9
  let (first, vm1, tty1) ← vm.ReadMemory tty pcOffset
  let (resulting, vm2, tty2) ← vm1.ReadMemory tty1 first
  let r1 ← vm2.registers.Update dest resulting
  let r2 ← r1.UpdateConditionRegister dest
  pure ({ vm2 with registers := r2 }, tty2)

/-- Go: `sti`. -/
def sti (instruction : Nat) (vm : VM) (tty : Console) : Except Fault (VM × Console) := do
  let source := (instruction >>> 9) &&& 0x7
  let pcOffset := signExtend (instruction &&& 0x1ff) 9
  let val := (vm.registers.PC + pcOffset) % 65536
  let (address, vm1, tty1) ← vm.ReadMemory tty val
  let x ← vm1.registers.Get source
  let vm2 ← vm1.WriteMemory address x
  pure (vm2, tty1)

/-- Go: `jmp`. -/
def jmp (instruction : Nat) (vm : VM) : Except Fault VM := do
  let reg := (instruction >>> 6) &&& 0x7
  let x ← vm.registers.Get reg
  pure (vm.setPC x)

/-- Go: `lea`. -/
def lea (instruction : Nat) (vm : VM) : Except Fault VM := do
  let dr := (instruction >>> 9) &&& 0x7
  let pcOffset := signExtend (instruction &&& 0x1ff) 9
  let value := (vm.registers.PC + pcOffset) % 65536
  let r1 ← vm.registers.Update dr value
  let r2 ← r1.UpdateConditionRegister dr
  pure { vm with registers := r2 }

/-- Go: the code point that `fmt.Printf("%c", c)` writes for an integer `c`: the
replacement character U+FFFD when `c` is above `utf8.MaxRune` or is a surrogate
(`0xD800..0xDFFF`), and `c` itself otherwise. -/
def fmtC (c : Nat) : Nat :=
  if 0x10FFFF < c ∨ (0xD800 ≤ c ∧ c ≤ 0xDFFF) then 0xFFFD else c

/-- Go: a call `vm.ReadMemory(index)` made inside `trap`, with a record of it: `log`
lists the addresses `ReadMemory` has been called with so far in this trap. -/
def VM.ReadMemoryLogged (v : VM) (tty : Console) (log : List Nat) (index : Nat) :
    Except Fault (Nat × VM × Console × List Nat) := do
  let (x, v1, tty1) ← v.ReadMemory tty index
  pure (x, v1, tty1, log ++ [index])

/-- The loop `for c != 0x0000 { fmt.Printf("%c", c); idx += 1; c = vm.ReadMemory(idx) }`
of trap `0x22`, run for at most `fuel` iterations. -/
def putsLoop : Nat → VM → Console → List Nat → Nat → Nat →
    Except Fault (VM × Console × List Nat)
  | fuel, vm, tty, log, idx, c =>
    if c ≠ 0 then
      match fuel with
      | 0 => .error .fuelExhausted
      | fuel + 1 => do
        let tty1 := tty.print [fmtC c]
        let idx1 := (idx + 1) % 65536
        let (c1, vm1, tty2, log1) ← vm.ReadMemoryLogged tty1 log idx1
        putsLoop fuel vm1 tty2 log1 idx1 c1
    else pure (vm, tty, log)

/-- The loop of trap `0x24`: the low byte of each word is printed, then the high
byte when it is not zero. -/
def putspLoop : Nat → VM → Console → List Nat → Nat → Nat →
    Except Fault (VM × Console × List Nat)
  | fuel, vm, tty, log, idx, c =>
    if c ≠ 0 then
      match fuel with
      | 0 => .error .fuelExhausted
      | fuel + 1 => do
        let c1 := c &&& 0xFF
        let tty1 := tty.print [fmtC c1]
        let c2 := c >>> 8
        let tty2 := if c2 ≠ 0 then tty1.print [fmtC c2] else tty1
        let idx1 := (idx + 1) % 65536
        let (c', vm1, tty3, log1) ← vm.ReadMemoryLogged tty2 log idx1
        putspLoop fuel vm1 tty3 log1 idx1 c'
    else pure (vm, tty, log)

/-- The code points of `fmt.Println("HALTing execution")`. -/
def haltNotice : List Nat := ("HALTing execution".toList.map Char.toNat) ++ [10]

/-- Go: `trap`, a switch on `instruction & 0xFF`.  Besides the state and the console
the result lists, in order, the addresses `ReadMemory` was called with.  The index of
the two printing loops grows by one per iteration and a read at `memoryLen` faults, so
`memoryLen + 1` iterations are never used up. -/
def trap (instruction : Nat) (vm : VM) (tty : Console) :
    Except Fault (VM × Console × List Nat) :=
  let code := instruction &&& 0xFF
  if code = 0x20 then
    let (s, tty1) := tty.scan
    let tty2 := tty1.report s
    match s.text with
    | [] => .error (.indexOutOfRange 0 0)
    | b :: _ => do
      let r1 ← vm.registers.Update 0 b
      pure ({ vm with registers := r1 }, tty2, [])
  else if code = 0x21 then do
    let c ← vm.registers.Get 0
    pure (vm, tty.print [fmtC c, 10], [])
  else if code = 0x22 then do
    let idx ← vm.registers.Get 0
    let (c, vm1, tty1, log1) ← vm.ReadMemoryLogged tty [] idx
    putsLoop (memoryLen + 1) vm1 tty1 log1 idx c
  else if code = 0x23 then
    let (s, tty1) := tty.scan
    let tty2 := tty1.report s
    match s.text with
    | [] => .error (.indexOutOfRange 0 0)
    | c :: _ => do
      let r1 ← vm.registers.Update 0 c
      pure ({ vm with registers := r1 }, tty2.print [fmtC c, 10], [])
  else if code = 0x24 then do
    let idx ← vm.registers.Get 0
    let (c, vm1, tty1, log1) ← vm.ReadMemoryLogged tty [] idx
    putspLoop (memoryLen + 1) vm1 tty1 log1 idx c
  else if code = 0x25 then
    .error (.osExit 0 (tty.print haltNotice).stdout)
  else
    .error (.osExit 1 tty.stdout)

/-- Go: `VM.executeInstruction`, a switch on the opcode. -/
def VM.executeInstruction (v : VM) (tty : Console) (instruction : Nat) :
    Except Fault (VM × Console) :=
  let opcode := opcodes.GetOpCode instruction
  if opcode = 0 then (br instruction v).map (fun v1 => (v1, tty))
  else if opcode = 1 then (add instruction v).map (fun v1 => (v1, tty))
  else if opcode = 2 then ld instruction v tty
  else if opcode = 3 then (st instruction v).map (fun v1 => (v1, tty))
  else if opcode = 4 then (jsr instruction v).map (fun v1 => (v1, tty))
  else if opcode = 5 then (and instruction v).map (fun v1 => (v1, tty))
  else if opcode = 6 then ldr instruction v tty
  else if opcode = 7 then (str instruction v).map (fun v1 => (v1, tty))
  else if opcode = 8 then (rti instruction v).map (fun v1 => (v1, tty))
  else if opcode = 9 then (not instruction v).map (fun v1 => (v1, tty))
  else if opcode = 10 then ldi instruction v tty
  else if opcode = 11 then sti instruction v tty
  else if opcode = 12 then (jmp instruction v).map (fun v1 => (v1, tty))
  else if opcode = 13 then pure (v, tty)
  else if opcode = 14 then (lea instruction v).map (fun v1 => (v1, tty))
  else if opcode = 15 then (trap instruction v tty).map (fun r => (r.1, r.2.1))
  else pure (v, tty)

/-- The body of the loop of Go `VM.Execute`: fetch at `PC`, `PC += 1`, execute. -/
def VM.ExecuteStep (v : VM) (tty : Console) : Except Fault (VM × Console) := do
  let (instruction, v1, tty1) ← v.ReadMemory tty v.registers.PC
  let v2 := v1.setPC ((v1.registers.PC + 1) % 65536)
  v2.executeInstruction tty1 instruction

/-- Go: `VM.Execute`, the loop `for v.registers.PC < ^uint16(0) { ... }` run for at most
`fuel` iterations.  The flag of the result is `true` when the loop was left because
its guard failed and `false` when the budget ran out with the guard still true. -/
def VM.Execute : Nat → VM → Console → Except Fault (Bool × VM × Console)
  | fuel, v, tty =>
    if v.registers.PC < memoryLen then
      match fuel with
      | 0 => pure (false, v, tty)
      | fuel + 1 => do
        let (v1, tty1) ← v.ExecuteStep tty
        VM.Execute fuel v1 tty1
    else pure (true, v, tty)

/-- The two errors of Go `binary.Read` on a `bytes.Reader`: `io.EOF` when no byte
is left and `io.ErrUnexpectedEOF` when the value is cut short. -/
inductive IOError where
  | EOF
  | ErrUnexpectedEOF
  deriving DecidableEq, Repr

/-- Go: `binary.BigEndian.Uint16`, `uint16(b[1]) | uint16(b[0])<<8`. -/
def bigEndianUint16 (b0 b1 : Nat) : Nat := b1 ||| ((b0 <<< 8) % 65536)

/-- The loop of Go `NewVM`.  The three patterns are the three outcomes of
`binary.Read(reader, binary.BigEndian, &instruction)`: `io.EOF` (break),
`io.ErrUnexpectedEOF` (return `nil, err`) and a word, stored by the bounds-checked
`v.memory[address] = instruction`. -/
def NewVM.loop : List Nat → Nat → VM → Except Fault (Option VM × Option IOError)
  | [], _, v => .ok (some v, none)
  | [_], _, _ => .ok (none, some .ErrUnexpectedEOF)
  | b0 :: b1 :: rest, address, v =>
    let instruction := bigEndianUint16 b0 b1
    if address < memoryLen then
      NewVM.loop rest ((address + 1) % 65536)
        { v with memory := fun a => if a = address then instruction else v.memory a }
    else .error (.indexOutOfRange address memoryLen)

/-- Go: `NewVM(b []byte) (*VM, error)`; the result is the returned pair, `none`
standing for `nil`. -/
def NewVM (b : List Nat) : Except Fault (Option VM × Option IOError) :=
  let v : VM := { registers := register.NewRegisters, memory := fun _ => 0 }
  match b with
  | [] => .ok (none, some .EOF)
  | [_] => .ok (none, some .ErrUnexpectedEOF)
  | b0 :: b1 :: rest =>
    let address := bigEndianUint16 b0 b1
    NewVM.loop rest address (v.setPC address)

/-! ## Vocabulary of the specification -/

/-- Bits `hi..lo` of an instruction word, read as a number. -/
def bits (x hi lo : Nat) : Nat := x / 2 ^ lo % 2 ^ (hi + 1 - lo)

/-- The two's-complement reading of the low `n` bits pattern `v < 2 ^ n`. -/
def toSigned (n v : Nat) : Int := if v < 2 ^ (n - 1) then (v : Int) else (v : Int) - 2 ^ n

/-- The condition code the specification assigns to a written word: Zero for `0`,
Negative when bit 15 is set, Positive otherwise. -/
def flagOf (v : Nat) : Nat :=
  if v = 0 then register.Zro else if v.testBit 15 then register.Neg else register.Pos

/-- The condition code `UpdateConditionRegister` computes from a register value,
with the tests of the Go code. -/
def condOf (v : Nat) : Nat :=
  if v = 0 then register.Zro else if v >>> 15 ≠ 0 then register.Neg else register.Pos

/-- Exactly one of the three flags. -/
def OneFlag (c : Nat) : Prop := c = register.Pos ∨ c = register.Zro ∨ c = register.Neg

instance (c : Nat) : Decidable (OneFlag c) := by
  unfold OneFlag
  infer_instance

/-- The big-endian byte stream of a list of words. -/
def bigEndianBytes : List Nat → List Nat
  | [] => []
  | w :: ws => (w / 256) :: (w % 256) :: bigEndianBytes ws

/-- The states reached from a loaded image by executed instructions: by whole
fetch-execute steps of the run loop or by single instructions, under any console. -/
inductive Reachable : VM → Prop where
  | load (b : List Nat) (vm : VM) (e : Option IOError) :
      NewVM b = .ok (some vm, e) → Reachable vm
  | step (vm vm' : VM) (tty tty' : Console) :
      Reachable vm → vm.ExecuteStep tty = .ok (vm', tty') → Reachable vm'
  | exec (vm vm' : VM) (tty tty' : Console) (instruction : Nat) :
      Reachable vm → vm.executeInstruction tty instruction = .ok (vm', tty') → Reachable vm'

/-! ## Sample states -/

/-- A state with `PC = 0x3001`, condition code `Zro`, `memory[0x3003] = 0x4000`,
`memory[0x4000] = 42` and zero everywhere else. -/
def sampleVM : VM :=
  { registers := { regs := fun _ => 0, PC := 0x3001, cond := register.Zro },
    memory := fun a => if a = 0x3003 then 0x4000 else if a = 0x4000 then 42 else 0 }

/-- A console with no input left and nothing written. -/
def quietConsole : Console := { stdin := [], stdout := [], stderr := 0 }

/-- A console whose next input line is `A`. -/
def lineConsole : Console :=
  { stdin := [{ text := [65], failed := false }], stdout := [], stderr := 0 }

/-- A state with `R1 = 0xFFFF`, `PC = 0x3001`, condition code `Pos` and an empty memory. -/
def wrapVM : VM :=
  { registers := { regs := fun j => if j = 1 then 0xFFFF else 0, PC := 0x3001, cond := register.Pos },
    memory := fun _ => 0 }

/-! ## Results of the handlers -/

/-- The second operand of `add` and `and`: the sign-extended 5-bit literal when bit 5
is set, the register named in bits 2..0 otherwise. -/
def operand2 (instruction : Nat) (vm : VM) : Nat :=
  if bits instruction 5 5 = 1 then signExtend (bits instruction 4 0) 5
  else vm.registers.regs (bits instruction 2 0)

/-- The state after `Update(dest, value)` and `UpdateConditionRegister(dest)`. -/
def VM.writeReg (vm : VM) (dest value : Nat) : VM :=
  { vm with registers :=
      { regs := fun j => if j = dest then value else vm.registers.regs j,
        PC := vm.registers.PC,
        cond := condOf value } }

/-- The state after `Update(7, PC)`, the first statement of `jsr`. -/
def VM.link (vm : VM) : VM :=
  { vm with registers :=
      { vm.registers with regs := fun j => if j = 7 then vm.registers.PC else vm.registers.regs j } }

/-- The image `30 00 10 25`: origin `0x3000` and the word `0x1025`, `ADD R0, R0, #5`. -/
def addImage : List Nat := [0x30, 0x00, 0x10, 0x25]

/-- The state after the one instruction of `addImage` has run: `R0 = 5`,
`PC = 0x3001`, condition code `Pos`. -/
def addStepped : VM :=
  { registers := { regs := fun j => if j = 0 then 5 else 0, PC := 0x3001, cond := register.Pos },
    memory := fun a => if a = 0x3000 then 0x1025 else 0 }

/-- Every element of every text still to be scanned is a byte. -/
def Console.WF (tty : Console) : Prop := ∀ s ∈ tty.stdin, ∀ b ∈ s.text, b < 256

/-- A state with `PC = 0x3000` and `memory[0x3000] = 0x4802`, the word `JSR +2`. -/
def callVM : VM :=
  { registers := { regs := fun _ => 0, PC := 0x3000, cond := register.Zro },
    memory := fun a => if a = 0x3000 then 0x4802 else 0 }

/-! ## Vocabulary for the decoder, the traps and the run loop -/

/-- The opcode identifiers in the order of their declaration in package `opcodes`. -/
def opcodeList : List Nat :=
  [opcodes.BR, opcodes.ADD, opcodes.LD, opcodes.ST, opcodes.JSR, opcodes.AND, opcodes.LDR,
   opcodes.STR, opcodes.RTI, opcodes.NOT, opcodes.LDI, opcodes.STI, opcodes.JMP, opcodes.RES,
   opcodes.LEA, opcodes.TRAP]

/-- A state with `PC = 0x3000` and `memory[0x3000] = 0xE002`, the word `LEA R0, +2`. -/
def leaVM : VM :=
  { registers := { regs := fun _ => 0, PC := 0x3000, cond := register.Zro },
    memory := fun a => if a = 0x3000 then 0xE002 else 0 }

/-- A console whose next input line is the single byte `0` (NUL). -/
def nulConsole : Console :=
  { stdin := [{ text := [0], failed := false }], stdout := [], stderr := 0 }

/-- A console whose next input line is empty. -/
def emptyLineConsole : Console :=
  { stdin := [{ text := [], failed := false }], stdout := [], stderr := 0 }

/-- A console whose next scan fails with a read error and leaves no text. -/
def failedConsole : Console :=
  { stdin := [{ text := [], failed := true }], stdout := [], stderr := 0 }

/-- A state as a successful keyboard poll leaves it: `memory[0xFE00] = 0x8000`,
`memory[0xFE02] = 0x41`, everything else zero, `PC = 0x3000`. -/
def polledVM : VM :=
  { registers := { regs := fun _ => 0, PC := 0x3000, cond := register.Zro },
    memory := fun a => if a = 0xFE00 then 0x8000 else if a = 0xFE02 then 0x41 else 0 }

/-- The image `FF FE 10 20`: origin `0xFFFE` and the word `0x1020`, `ADD R0, R0, #0`. -/
def topImage : List Nat := [0xFF, 0xFE, 0x10, 0x20]

/-- The states at the head of the loop of `Execute` when it runs a loaded image: the
state returned by `NewVM`, and the state after each iteration that the guard
`PC < ^uint16(0)` lets through. -/
inductive LoopHead : VM → Console → Prop where
  | load (b : List Nat) (vm : VM) (tty : Console) :
      NewVM b = .ok (some vm, none) → LoopHead vm tty
  | step (vm vm' : VM) (tty tty' : Console) :
      LoopHead vm tty → vm.registers.PC < memoryLen →
      vm.ExecuteStep tty = .ok (vm', tty') → LoopHead vm' tty'

/-- The `n` memory words from address `a` on. -/
def stringAt (vm : VM) : Nat → Nat → List Nat
  | _, 0 => []
  | a, n + 1 => vm.memory a :: stringAt vm (a + 1) n

/-- The characters packed in a list of words: of each word the low byte, followed by
the high byte when that is not zero. -/
def unpack : List Nat → List Nat
  | [] => []
  | c :: cs => (if c / 256 ≠ 0 then [c % 256, c / 256] else [c % 256]) ++ unpack cs

/-- A state with `R0 = 0x4000` and `memory[0x4000 ..] = 0x0048, 0x0049, 0x0000`. -/
def hiVM : VM :=
  { registers := { regs := fun j => if j = 0 then 0x4000 else 0, PC := 0x3001,
                   cond := register.Pos },
    memory := fun a => if a = 0x4000 then 0x48 else if a = 0x4001 then 0x49 else 0 }

/-- A state with `R0 = 0x4000` and `memory[0x4000 ..] = 0x4948, 0x0021, 0x0000`. -/
def packedVM : VM :=
  { registers := { regs := fun j => if j = 0 then 0x4000 else 0, PC := 0x3001,
                   cond := register.Pos },
    memory := fun a => if a = 0x4000 then 0x4948 else if a = 0x4001 then 0x21 else 0 }

/-- A state with `R0 = 0x4000` and `memory[0x4000 ..] = 0x0048, 0xDFFF, 0x0049, 0x0000`;
the second word is a surrogate code. -/
def surrogateVM : VM :=
  { registers := { regs := fun j => if j = 0 then 0x4000 else 0, PC := 0x3001,
                   cond := register.Pos },
    memory := fun a =>
      if a = 0x4000 then 0x48 else if a = 0x4001 then 0xDFFF
      else if a = 0x4002 then 0x49 else 0 }

/-- A state with `R0 = 0xFFFE` and `memory[0xFFFE] = 0x0041`, the last word of the
memory array; everything else zero. -/
def topStringVM : VM :=
  { registers := { regs := fun j => if j = 0 then 0xFFFE else 0, PC := 0x3001,
                   cond := register.Pos },
    memory := fun a => if a = 0xFFFE then 0x41 else 0 }

/-! ## Evaluation lemmas -/

theorem pure_eq {ε α : Type} (a : α) : (pure a : Except ε α) = Except.ok a := rfl

theorem map_ok_eq {ε α β : Type} (f : α → β) (a : α) :
    Except.map f (Except.ok a : Except ε α) = Except.ok (f a) := rfl

theorem shift_and_eq_bits (x lo k : Nat) :
    (x >>> lo) &&& (2 ^ k - 1) = x / 2 ^ lo % 2 ^ k := by
  rw [Nat.and_pow_two_sub_one_eq_mod, Nat.shiftRight_eq_div_pow]

theorem field_11_9 (x : Nat) : (x >>> 9) &&& 7 = bits x 11 9 := shift_and_eq_bits x 9 3

theorem field_8_6 (x : Nat) : (x >>> 6) &&& 7 = bits x 8 6 := shift_and_eq_bits x 6 3

theorem field_5 (x : Nat) : (x >>> 5) &&& 1 = bits x 5 5 := shift_and_eq_bits x 5 1

theorem field_11 (x : Nat) : (x >>> 11) &&& 1 = bits x 11 11 := shift_and_eq_bits x 11 1

theorem field_2_0 (x : Nat) : x &&& 7 = bits x 2 0 := by
  have := shift_and_eq_bits x 0 3
  simpa [bits] using this

theorem field_4_0 (x : Nat) : x &&& 0x1f = bits x 4 0 := by
  have := shift_and_eq_bits x 0 5
  simpa [bits] using this

theorem field_5_0 (x : Nat) : x &&& 0x3f = bits x 5 0 := by
  have := shift_and_eq_bits x 0 6
  simpa [bits] using this

theorem field_7_0 (x : Nat) : x &&& 0xFF = bits x 7 0 := by
  have := shift_and_eq_bits x 0 8
  simpa [bits] using this

theorem field_8_0 (x : Nat) : x &&& 0x1ff = bits x 8 0 := by
  have := shift_and_eq_bits x 0 9
  simpa [bits] using this

theorem field_10_0 (x : Nat) : x &&& 0x7ff = bits x 10 0 := by
  have := shift_and_eq_bits x 0 11
  simpa [bits] using this

theorem condOf_eq_flagOf (v : Nat) (hv : v < 65536) : condOf v = flagOf v := by
  have h : (v >>> 15 ≠ 0) ↔ v.testBit 15 = true := by
    rw [Nat.shiftRight_eq_div_pow, Nat.testBit_to_div_mod]
    simp only [decide_eq_true_eq]
    omega
  unfold condOf flagOf
  by_cases h0 : v = 0
  · simp [h0]
  · by_cases h1 : v >>> 15 ≠ 0
    · rw [if_neg h0, if_neg h0, if_pos h1, if_pos (h.mp h1)]
    · rw [if_neg h0, if_neg h0, if_neg h1, if_neg (fun hb => h1 (h.mpr hb))]

theorem condOf_oneFlag (v : Nat) : OneFlag (condOf v) := by
  unfold condOf OneFlag
  split
  · exact Or.inr (Or.inl rfl)
  · split
    · exact Or.inr (Or.inr rfl)
    · exact Or.inl rfl


theorem bind_ok_eq {ε α β : Type} (a : α) (f : α → Except ε β) :
    (Except.ok a >>= f) = f a := rfl

theorem bind_error_eq {ε α β : Type} (e : ε) (f : α → Except ε β) :
    (Except.error e >>= f) = Except.error e := rfl

theorem field3_lt (x : Nat) : x &&& 7 < 8 :=
  Nat.lt_of_le_of_lt Nat.and_le_right (by decide)

theorem Get_field (r : register.Registers) (x : Nat) :
    r.Get (x &&& 7) = .ok (r.regs (x &&& 7)) := by
  simp [register.Registers.Get, field3_lt]

theorem UpdateConditionRegister_field (r : register.Registers) (x : Nat) :
    r.UpdateConditionRegister (x &&& 7) = .ok { r with cond := condOf (r.regs (x &&& 7)) } := by
  simp only [register.Registers.UpdateConditionRegister, Get_field, bind_ok_eq, condOf, pure_eq]
  split
  · rfl
  · split <;> rfl

theorem Update_field (r : register.Registers) (x v : Nat) :
    r.Update (x &&& 7) v = .ok { r with regs := fun j => if j = x &&& 7 then v else r.regs j } := by
  simp [register.Registers.Update, field3_lt]

theorem opcode_of_bits (instruction n : Nat) (hword : instruction < 65536)
    (hop : bits instruction 15 12 = n) : instruction >>> 12 = n := by
  rw [Nat.shiftRight_eq_div_pow]; unfold bits at hop; omega

/-! ## Sign extension -/

theorem mask_above (w : Nat) (hw : w ≤ 16) :
    (0xFFFF <<< w) % 65536 = 2 ^ w * (2 ^ (16 - w) - 1) := by
  interval_cases w <;> rfl

theorem mask_above_val (w : Nat) (hw : w ≤ 16) :
    2 ^ w * (2 ^ (16 - w) - 1) = 65536 - 2 ^ w := by
  interval_cases w <;> rfl

theorem signExtend_eq (x w : Nat) (hw1 : 1 ≤ w) (hw : w ≤ 16) (hx : x < 2 ^ w) :
    signExtend x w = if x < 2 ^ (w - 1) then x else x + (65536 - 2 ^ w) := by
  have hs : (w + 255) % 256 = w - 1 := by omega
  have hp : 2 ^ w = 2 * 2 ^ (w - 1) := by
    rw [← Nat.pow_succ']; congr 1; omega
  have hpos : 0 < 2 ^ (w - 1) := Nat.pow_pos (by decide)
  have hbit : (x >>> (w - 1)) &&& 1 = x / 2 ^ (w - 1) % 2 := by
    have := shift_and_eq_bits x (w - 1) 1
    simpa using this
  have hdiv : x / 2 ^ (w - 1) < 2 := by
    rw [Nat.div_lt_iff_lt_mul hpos]; omega
  unfold signExtend
  rw [hs, hbit]
  by_cases hlt : x < 2 ^ (w - 1)
  · have : x / 2 ^ (w - 1) = 0 := Nat.div_eq_of_lt hlt
    simp [this, hlt]
  · have hge : 1 ≤ x / 2 ^ (w - 1) := by
      rw [Nat.le_div_iff_mul_le hpos]; omega
    have h1 : x / 2 ^ (w - 1) % 2 ≠ 0 := by omega
    rw [if_pos h1, if_neg hlt, mask_above w hw, Nat.lor_comm, ← Nat.mul_add_lt_is_or hx,
      mask_above_val w hw]
    omega

/-! ## Handlers without memory access -/

theorem br_eq (instruction : Nat) (vm : VM) :
    br instruction vm = .ok
      (if bits instruction 11 9 &&& vm.registers.cond ≠ 0 then
        vm.setPC (signExtend (bits instruction 8 0) 9) else vm) := by
  simp only [← field_11_9, ← field_8_0]
  unfold br
  simp only [register.Registers.GetConditionRegister, pure_eq]
  split <;> rfl

theorem add_eq (instruction : Nat) (vm : VM) :
    add instruction vm = .ok (vm.writeReg (bits instruction 11 9)
      ((vm.registers.regs (bits instruction 8 6) + operand2 instruction vm) % 65536)) := by
  simp only [VM.writeReg, operand2, ← field_11_9, ← field_8_6, ← field_5, ← field_2_0,
    ← field_4_0]
  unfold add
  by_cases h : (instruction >>> 5) &&& 1 = 1
  · simp only [h, if_true, Get_field, Update_field, UpdateConditionRegister_field,
      bind_ok_eq, pure_eq]
  · simp only [h, if_true, if_false, Get_field, Update_field, UpdateConditionRegister_field,
      bind_ok_eq, pure_eq]

theorem executeInstruction_br (instruction : Nat) (vm : VM) (tty : Console)
    (hword : instruction < 65536) (hop : bits instruction 15 12 = 0) :
    vm.executeInstruction tty instruction = (br instruction vm).map (fun v1 => (v1, tty)) := by
  simp [VM.executeInstruction, opcodes.GetOpCode, opcode_of_bits _ _ hword hop, opcodes.BR]

theorem executeInstruction_add (instruction : Nat) (vm : VM) (tty : Console)
    (hword : instruction < 65536) (hop : bits instruction 15 12 = 1) :
    vm.executeInstruction tty instruction = (add instruction vm).map (fun v1 => (v1, tty)) := by
  simp [VM.executeInstruction, opcodes.GetOpCode, opcode_of_bits _ _ hword hop, opcodes.ADD]

/-! ## Claims C1 to C4 -/

/-- C1 (the code departs from the claim).  `BRz +2` (word `0x0402`) executed with
`PC = 0x3001` and condition code Zero: the branch is taken and the claim puts `PC` at
`0x3001 + 2 = 0x3003`, but `br` assigns the bare sign-extended offset, so `PC = 2`. -/
theorem br_taken_discards_pc :
    bits 0x0402 15 12 = 0 ∧
    bits 0x0402 11 9 &&& sampleVM.registers.cond ≠ 0 ∧
    (sampleVM.registers.PC + signExtend (bits 0x0402 8 0) 9) % 65536 = 0x3003 ∧
    ∃ vm', sampleVM.executeInstruction quietConsole 0x0402 = .ok (vm', quietConsole) ∧
      vm'.registers.PC = 2 :=
  ⟨by decide, by decide, by decide, _, rfl, rfl⟩

/-- C2 (the code departs from the claim).  `LDI R0, +2` (word `0xA002`) executed with
`PC = 0x3001`, `memory[0x3003] = 0x4000` and `memory[0x4000] = 42`: the claim loads
`42` into `R0` with condition code Positive, but `ldi` masks the word with `0x1ff9`
and does not add `PC`, so it reads `memory[memory[0]] = 0` and leaves `R0 = 0` with
condition code Zero. -/
theorem ldi_ignores_pc :
    bits 0xA002 15 12 = 10 ∧
    (sampleVM.registers.PC + signExtend (bits 0xA002 8 0) 9) % 65536 = 0x3003 ∧
    sampleVM.memory 0x3003 = 0x4000 ∧ sampleVM.memory 0x4000 = 42 ∧
    ∃ vm', sampleVM.executeInstruction quietConsole 0xA002 = .ok (vm', quietConsole) ∧
      vm'.registers.regs (bits 0xA002 11 9) = 0 ∧ vm'.registers.cond = register.Zro :=
  ⟨by decide, by decide, by decide, by decide, _, rfl, by decide, rfl⟩

/-- C3.  Every instruction word with opcode 1 executes without a fault and without
console traffic; the destination register (bits 11..9) receives
`(src1 + operand) mod 65536`, where `src1` is the register in bits 8..6 and the
operand is `signExtend(bits 4..0, 5)` when bit 5 is set and the register in bits 2..0
otherwise; the condition code is the flag of the new destination value; `PC`, memory
and every other register are unchanged. -/
theorem add_wraps_and_sets_flags (instruction : Nat) (vm : VM) (tty : Console)
    (hword : instruction < 65536) (hop : bits instruction 15 12 = 1) :
    ∃ vm', vm.executeInstruction tty instruction = .ok (vm', tty) ∧
      vm'.registers.regs (bits instruction 11 9) =
        (vm.registers.regs (bits instruction 8 6) +
          (if bits instruction 5 5 = 1 then signExtend (bits instruction 4 0) 5
           else vm.registers.regs (bits instruction 2 0))) % 65536 ∧
      vm'.registers.cond = flagOf (vm'.registers.regs (bits instruction 11 9)) ∧
      (∀ j, j ≠ bits instruction 11 9 → vm'.registers.regs j = vm.registers.regs j) ∧
      vm'.registers.PC = vm.registers.PC ∧ vm'.memory = vm.memory := by
  rw [executeInstruction_add instruction vm tty hword hop, add_eq, map_ok_eq]
  refine ⟨_, rfl, ?_, ?_, ?_, rfl, rfl⟩
  · simp only [VM.writeReg, operand2, if_true]
  · simp only [VM.writeReg, if_true]
    exact condOf_eq_flagOf _ (Nat.mod_lt _ (by decide))
  · intro j hj
    simp only [VM.writeReg, if_neg hj]

/-- Witness for C3: `ADD R0, R1, #1` (word `0x1061`) with `R1 = 0xFFFF`; the sum 65536
wraps to `0`. -/
theorem add_wraps_and_sets_flags_witness :
    (0x1061 < 65536 ∧ bits 0x1061 15 12 = 1) ∧
    ∃ vm', wrapVM.executeInstruction quietConsole 0x1061 = .ok (vm', quietConsole) ∧
      vm'.registers.regs (bits 0x1061 11 9) =
        (wrapVM.registers.regs (bits 0x1061 8 6) +
          (if bits 0x1061 5 5 = 1 then signExtend (bits 0x1061 4 0) 5
           else wrapVM.registers.regs (bits 0x1061 2 0))) % 65536 ∧
      vm'.registers.cond = flagOf (vm'.registers.regs (bits 0x1061 11 9)) ∧
      (∀ j, j ≠ bits 0x1061 11 9 → vm'.registers.regs j = wrapVM.registers.regs j) ∧
      vm'.registers.PC = wrapVM.registers.PC ∧ vm'.memory = wrapVM.memory :=
  ⟨by decide, add_wraps_and_sets_flags 0x1061 wrapVM quietConsole (by decide) (by decide)⟩

/-- C4.  For every field width `1 ≤ w ≤ 16` and raw field value `x < 2 ^ w`,
`signExtend x w` is a 16-bit word whose 16-bit two's-complement reading equals the
`w`-bit two's-complement reading of `x` (`x` when `x < 2 ^ (w - 1)`, else `x - 2 ^ w`). -/
theorem signExtend_preserves_signed_value (w x : Nat) (hw1 : 1 ≤ w) (hw : w ≤ 16)
    (hx : x < 2 ^ w) :
    signExtend x w < 65536 ∧ toSigned 16 (signExtend x w) = toSigned w x := by
  have hp : 2 ^ w = 2 * 2 ^ (w - 1) := by
    rw [← Nat.pow_succ']; congr 1; omega
  have hle : 2 ^ w ≤ 2 ^ 16 := Nat.pow_le_pow_right (by decide) hw
  have h16 : (2 : Nat) ^ 16 = 65536 := by norm_num
  have h15 : (2 : Nat) ^ (16 - 1) = 32768 := by norm_num
  have hi16 : (2 : Int) ^ 16 = 65536 := by norm_num
  have hcast : ((2 ^ w : Nat) : Int) = (2 : Int) ^ w := by push_cast; rfl
  rw [signExtend_eq x w hw1 hw hx]
  unfold toSigned
  rw [h15, hi16, ← hcast]
  by_cases hlt : x < 2 ^ (w - 1)
  · rw [if_pos hlt, if_pos hlt]
    refine ⟨by omega, ?_⟩
    rw [if_pos (by omega)]
  · rw [if_neg hlt, if_neg hlt]
    refine ⟨by omega, ?_⟩
    rw [if_neg (by omega)]
    push_cast
    omega

/-- Witness for C4: the 5-bit field `0x1F` reads `-1` before and after extension. -/
theorem signExtend_preserves_signed_value_witness :
    (1 ≤ 5 ∧ 5 ≤ 16 ∧ 0x1F < 2 ^ 5) ∧
      (signExtend 0x1F 5 < 65536 ∧ toSigned 16 (signExtend 0x1F 5) = toSigned 5 0x1F) :=
  ⟨by decide, signExtend_preserves_signed_value 5 0x1F (by decide) (by decide) (by decide)⟩

theorem bind_eq_ok {ε α β : Type} (x : Except ε α) (f : α → Except ε β) (b : β) :
    (x >>= f) = .ok b ↔ ∃ a, x = .ok a ∧ f a = .ok b := by
  cases x with
  | error e => simp [bind, Except.bind]
  | ok a => simp [bind, Except.bind]

theorem map_eq_ok {ε α β : Type} (x : Except ε α) (f : α → β) (b : β) :
    x.map f = .ok b ↔ ∃ a, x = .ok a ∧ f a = b := by
  cases x with
  | error e => simp [Except.map]
  | ok a => simp [Except.map]

theorem and_eq (instruction : Nat) (vm : VM) :
    and instruction vm = .ok (vm.writeReg (bits instruction 11 9)
      (vm.registers.regs (bits instruction 8 6) &&& operand2 instruction vm)) := by
  simp only [VM.writeReg, operand2, ← field_11_9, ← field_8_6, ← field_5, ← field_2_0,
    ← field_4_0]
  unfold and
  by_cases h : (instruction >>> 5) &&& 1 = 1
  · simp only [h, if_true, Get_field, Update_field, UpdateConditionRegister_field,
      bind_ok_eq, pure_eq]
  · simp only [h, if_true, if_false, Get_field, Update_field, UpdateConditionRegister_field,
      bind_ok_eq, pure_eq]

theorem not_eq (instruction : Nat) (vm : VM) :
    not instruction vm = .ok (vm.writeReg (bits instruction 11 9)
      ((vm.registers.regs (bits instruction 8 6) ^^^ 0xFFFF) % 65536)) := by
  simp only [VM.writeReg, ← field_11_9, ← field_8_6]
  unfold not
  simp only [if_true, Get_field, Update_field, UpdateConditionRegister_field, bind_ok_eq, pure_eq]

theorem lea_eq (instruction : Nat) (vm : VM) :
    lea instruction vm = .ok (vm.writeReg (bits instruction 11 9)
      ((vm.registers.PC + signExtend (bits instruction 8 0) 9) % 65536)) := by
  simp only [VM.writeReg, ← field_11_9, ← field_8_0]
  unfold lea
  simp only [if_true, Get_field, Update_field, UpdateConditionRegister_field, bind_ok_eq, pure_eq]

theorem jmp_eq (instruction : Nat) (vm : VM) :
    jmp instruction vm = .ok (vm.setPC (vm.registers.regs (bits instruction 8 6))) := by
  simp only [← field_8_6]
  unfold jmp
  simp only [Get_field, bind_ok_eq, pure_eq]

theorem jsr_eq (instruction : Nat) (vm : VM) :
    jsr instruction vm = .ok
      (if bits instruction 11 11 ≠ 0 then
        vm.link.setPC ((vm.registers.PC + signExtend (bits instruction 10 0) 11) % 65536)
      else vm.link.setPC (vm.link.registers.regs (bits instruction 8 6))) := by
  simp only [← field_11, ← field_8_6, ← field_10_0]
  unfold jsr
  have h7 : vm.registers.Update 7 vm.registers.PC = .ok vm.link.registers := by
    simp [register.Registers.Update, VM.link]
  simp only [h7, bind_ok_eq, pure_eq, Get_field]
  split <;> rfl

theorem st_eq (instruction : Nat) (vm : VM) :
    st instruction vm = vm.WriteMemory
      ((vm.registers.PC + signExtend (bits instruction 8 0) 9) % 65536)
      (vm.registers.regs (bits instruction 11 9)) := by
  simp only [← field_11_9, ← field_8_0]
  unfold st
  simp only [Get_field, bind_ok_eq]

theorem str_eq (instruction : Nat) (vm : VM) :
    str instruction vm = vm.WriteMemory
      ((vm.registers.regs (bits instruction 8 6) + signExtend (bits instruction 5 0) 6) % 65536)
      (vm.registers.regs (bits instruction 11 9)) := by
  simp only [← field_11_9, ← field_8_6, ← field_5_0]
  unfold str
  simp only [Get_field, bind_ok_eq]

theorem ld_eq (instruction : Nat) (vm : VM) (tty : Console) :
    ld instruction vm tty =
      (vm.ReadMemory tty ((signExtend (bits instruction 8 0) 9 + vm.registers.PC) % 65536)) >>=
        fun r => .ok (r.2.1.writeReg (bits instruction 11 9) r.1, r.2.2) := by
  simp only [VM.writeReg, ← field_11_9, ← field_8_0]
  unfold ld
  simp only [if_true, Get_field, Update_field, UpdateConditionRegister_field, bind_ok_eq, pure_eq]

theorem ldr_eq (instruction : Nat) (vm : VM) (tty : Console) :
    ldr instruction vm tty =
      (vm.ReadMemory tty
        ((vm.registers.regs (bits instruction 8 6) + signExtend (bits instruction 5 0) 6) % 65536)) >>=
        fun r => .ok (r.2.1.writeReg (bits instruction 11 9) r.1, r.2.2) := by
  simp only [VM.writeReg, ← field_11_9, ← field_8_6, ← field_5_0]
  unfold ldr
  simp only [if_true, Get_field, Update_field, UpdateConditionRegister_field, bind_ok_eq, pure_eq]

theorem ldi_eq (instruction : Nat) (vm : VM) (tty : Console) :
    ldi instruction vm tty =
      (vm.ReadMemory tty (signExtend (instruction &&& 0x1ff9) 9)) >>= fun r1 =>
        (r1.2.1.ReadMemory r1.2.2 r1.1) >>= fun r =>
          .ok (r.2.1.writeReg (bits instruction 11 9) r.1, r.2.2) := by
  simp only [VM.writeReg, ← field_11_9]
  unfold ldi
  simp only [if_true, Get_field, Update_field, UpdateConditionRegister_field, bind_ok_eq, pure_eq]

theorem sti_eq (instruction : Nat) (vm : VM) (tty : Console) :
    sti instruction vm tty =
      (vm.ReadMemory tty ((vm.registers.PC + signExtend (bits instruction 8 0) 9) % 65536)) >>=
        fun r => (r.2.1.WriteMemory r.1 (r.2.1.registers.regs (bits instruction 11 9))) >>=
          fun v2 => .ok (v2, r.2.2) := by
  simp only [← field_11_9, ← field_8_0]
  unfold sti
  simp only [Get_field, bind_ok_eq, pure_eq]

/-! ## Memory access -/

theorem WriteMemory_eq_ok (v v' : VM) (a x : Nat) (h : v.WriteMemory a x = .ok v') :
    a < memoryLen ∧ v'.registers = v.registers ∧
      v'.memory = fun b => if b = a then x else v.memory b := by
  unfold VM.WriteMemory at h
  split at h
  · rename_i ha
    cases h
    exact ⟨ha, rfl, rfl⟩
  · cases h

theorem WriteMemory_of_lt (v : VM) (a x : Nat) (ha : a < memoryLen) :
    v.WriteMemory a x =
      .ok { v with memory := fun b => if b = a then x else v.memory b } := by
  unfold VM.WriteMemory
  rw [if_pos ha]

theorem handleKeyboard_eq_ok (v v' : VM) (tty tty' : Console)
    (h : v.handleKeyboard tty = .ok (v', tty')) :
    v'.registers = v.registers ∧ v'.memory register.Kbsr < 65536 := by
  unfold VM.handleKeyboard at h
  simp only at h
  split at h
  · cases h
  · rename_i read rest htext
    have hs : register.Kbsr < memoryLen := by decide
    have hd : register.Kbdr < memoryLen := by decide
    split at h
    · rw [WriteMemory_of_lt _ _ _ hs, bind_ok_eq, WriteMemory_of_lt _ _ _ hd, bind_ok_eq,
        pure_eq] at h
      cases h
      exact ⟨rfl, by simp [register.Kbsr, register.Kbdr]⟩
    · rw [WriteMemory_of_lt _ _ _ hs, bind_ok_eq, pure_eq] at h
      cases h
      exact ⟨rfl, by simp [register.Kbsr, register.Kbdr]⟩

theorem ReadMemory_of_plain (v : VM) (tty : Console) (index : Nat)
    (hk : index ≠ register.Kbsr) (hi : index < memoryLen) :
    v.ReadMemory tty index = .ok (v.memory index, v, tty) := by
  unfold VM.ReadMemory
  rw [if_neg hk, pure_eq, bind_ok_eq]
  simp only [if_pos hi, pure_eq]

theorem ReadMemory_eq_ok (v v' : VM) (tty tty' : Console) (index x : Nat)
    (h : v.ReadMemory tty index = .ok (x, v', tty')) :
    v'.registers = v.registers ∧ x = v'.memory index ∧ index < memoryLen ∧
      ((∀ a, v.memory a < 65536) → x < 65536) := by
  unfold VM.ReadMemory at h
  simp only at h
  split at h
  · rename_i hk
    rw [bind_eq_ok] at h
    obtain ⟨⟨v1, tty1⟩, h1, h2⟩ := h
    simp only at h2
    split at h2
    · rename_i hi
      rw [pure_eq] at h2
      cases h2
      obtain ⟨hr, hm⟩ := handleKeyboard_eq_ok _ _ _ _ h1
      exact ⟨hr, rfl, hi, fun _ => hk ▸ hm⟩
    · cases h2
  · rw [pure_eq, bind_ok_eq] at h
    simp only at h
    split at h
    · rename_i hi
      rw [pure_eq] at h
      cases h
      exact ⟨rfl, rfl, hi, fun hm => hm _⟩
    · cases h

/-! ## Traps -/

theorem ReadMemoryLogged_eq_ok (v v' : VM) (tty tty' : Console) (log log' : List Nat)
    (index x : Nat) (h : v.ReadMemoryLogged tty log index = .ok (x, v', tty', log')) :
    v.ReadMemory tty index = .ok (x, v', tty') ∧ log' = log ++ [index] := by
  unfold VM.ReadMemoryLogged at h
  rw [bind_eq_ok] at h
  obtain ⟨⟨x1, v1, tty1⟩, h1, h2⟩ := h
  cases h2
  exact ⟨h1, rfl⟩

theorem ReadMemoryLogged_eq_error (v : VM) (tty : Console) (log : List Nat) (index : Nat)
    (e : Fault) (h : v.ReadMemoryLogged tty log index = .error e) :
    v.ReadMemory tty index = .error e := by
  unfold VM.ReadMemoryLogged at h
  cases hr : v.ReadMemory tty index with
  | error e' =>
    rw [hr, bind_error_eq] at h
    cases h
    rfl
  | ok r =>
    rw [hr, bind_ok_eq] at h
    cases h

theorem ReadMemoryLogged_of_plain (v : VM) (tty : Console) (log : List Nat) (index : Nat)
    (hk : index ≠ register.Kbsr) (hi : index < memoryLen) :
    v.ReadMemoryLogged tty log index = .ok (v.memory index, v, tty, log ++ [index]) := by
  unfold VM.ReadMemoryLogged
  rw [ReadMemory_of_plain v tty index hk hi, bind_ok_eq]
  rfl

theorem putsLoop_registers (fuel : Nat) : ∀ (vm vm' : VM) (tty tty' : Console)
    (log log' : List Nat) (idx c : Nat),
    putsLoop fuel vm tty log idx c = .ok (vm', tty', log') →
    vm'.registers = vm.registers := by
  induction fuel with
  | zero =>
    intro vm vm' tty tty' log log' idx c h
    unfold putsLoop at h
    split at h
    · cases h
    · rw [pure_eq] at h
      cases h
      rfl
  | succ n ih =>
    intro vm vm' tty tty' log log' idx c h
    unfold putsLoop at h
    split at h
    · simp only at h
      rw [bind_eq_ok] at h
      obtain ⟨⟨c1, vm1, tty1, log1⟩, h1, h2⟩ := h
      have hr := (ReadMemory_eq_ok _ _ _ _ _ _ (ReadMemoryLogged_eq_ok _ _ _ _ _ _ _ _ h1).1).1
      rw [ih _ _ _ _ _ _ _ _ h2, hr]
    · rw [pure_eq] at h
      cases h
      rfl

theorem putspLoop_registers (fuel : Nat) : ∀ (vm vm' : VM) (tty tty' : Console)
    (log log' : List Nat) (idx c : Nat),
    putspLoop fuel vm tty log idx c = .ok (vm', tty', log') →
    vm'.registers = vm.registers := by
  induction fuel with
  | zero =>
    intro vm vm' tty tty' log log' idx c h
    unfold putspLoop at h
    split at h
    · cases h
    · rw [pure_eq] at h
      cases h
      rfl
  | succ n ih =>
    intro vm vm' tty tty' log log' idx c h
    unfold putspLoop at h
    split at h
    · simp only at h
      rw [bind_eq_ok] at h
      obtain ⟨⟨c1, vm1, tty1, log1⟩, h1, h2⟩ := h
      have hr := (ReadMemory_eq_ok _ _ _ _ _ _ (ReadMemoryLogged_eq_ok _ _ _ _ _ _ _ _ h1).1).1
      rw [ih _ _ _ _ _ _ _ _ h2, hr]
    · rw [pure_eq] at h
      cases h
      rfl

theorem Update_zero (r : register.Registers) (v : Nat) :
    r.Update 0 v = .ok { r with regs := fun j => if j = 0 then v else r.regs j } := by
  simp [register.Registers.Update]

theorem Get_zero (r : register.Registers) : r.Get 0 = .ok (r.regs 0) := by
  simp [register.Registers.Get]

/-- What a completed `trap` leaves in the register file: the input traps `0x20` and
`0x23` put the first byte of the scanned text in `R0`, and no trap touches any other
register, `PC` or the condition code. -/
theorem trap_eq_ok (instruction : Nat) (vm vm' : VM) (tty tty' : Console) (log' : List Nat)
    (h : trap instruction vm tty = .ok (vm', tty', log')) :
    vm'.registers.cond = vm.registers.cond ∧ vm'.registers.PC = vm.registers.PC ∧
    (∀ j, j ≠ 0 → vm'.registers.regs j = vm.registers.regs j) ∧
    ((bits instruction 7 0 = 0x20 ∨ bits instruction 7 0 = 0x23) →
      tty.scan.1.text.head? = some (vm'.registers.regs 0)) := by
  rw [← field_7_0]
  unfold trap at h
  simp only at h
  split at h
  · rename_i hc
    split at h
    · cases h
    · rename_i b rest htext
      rw [Update_zero, bind_ok_eq, pure_eq] at h
      cases h
      refine ⟨rfl, rfl, fun j hj => by simp only [if_neg hj], fun _ => ?_⟩
      simp only [htext, List.head?_cons, if_true]
  · rename_i hc0
    split at h
    · rename_i hc
      rw [Get_zero, bind_ok_eq, pure_eq] at h
      cases h
      exact ⟨rfl, rfl, fun _ _ => rfl, fun hh => by omega⟩
    · rename_i hc1
      split at h
      · rename_i hc
        rw [Get_zero, bind_ok_eq, bind_eq_ok] at h
        obtain ⟨⟨c1, vm1, tty1, log1⟩, h1, h2⟩ := h
        have hr := (ReadMemory_eq_ok _ _ _ _ _ _ (ReadMemoryLogged_eq_ok _ _ _ _ _ _ _ _ h1).1).1
        have hl := putsLoop_registers _ _ _ _ _ _ _ _ _ h2
        simp only at hl
        rw [hl, hr]
        exact ⟨rfl, rfl, fun _ _ => rfl, fun hh => by omega⟩
      · rename_i hc2
        split at h
        · rename_i hc
          split at h
          · cases h
          · rename_i b rest htext
            rw [Update_zero, bind_ok_eq, pure_eq] at h
            cases h
            refine ⟨rfl, rfl, fun j hj => by simp only [if_neg hj], fun _ => ?_⟩
            simp only [htext, List.head?_cons, if_true]
        · rename_i hc3
          split at h
          · rename_i hc
            rw [Get_zero, bind_ok_eq, bind_eq_ok] at h
            obtain ⟨⟨c1, vm1, tty1, log1⟩, h1, h2⟩ := h
            have hr := (ReadMemory_eq_ok _ _ _ _ _ _ (ReadMemoryLogged_eq_ok _ _ _ _ _ _ _ _ h1).1).1
            have hl := putspLoop_registers _ _ _ _ _ _ _ _ _ h2
            simp only at hl
            rw [hl, hr]
            exact ⟨rfl, rfl, fun _ _ => rfl, fun hh => by omega⟩
          · split at h <;> cases h

/-! ## Dispatch -/

theorem executeInstruction_ld (instruction : Nat) (vm : VM) (tty : Console)
    (hword : instruction < 65536) (hop : bits instruction 15 12 = 2) :
    vm.executeInstruction tty instruction = ld instruction vm tty := by
  simp [VM.executeInstruction, opcodes.GetOpCode, opcode_of_bits _ _ hword hop, opcodes.LD]

theorem executeInstruction_st (instruction : Nat) (vm : VM) (tty : Console)
    (hword : instruction < 65536) (hop : bits instruction 15 12 = 3) :
    vm.executeInstruction tty instruction = (st instruction vm).map (fun v1 => (v1, tty)) := by
  simp [VM.executeInstruction, opcodes.GetOpCode, opcode_of_bits _ _ hword hop, opcodes.ST]

theorem executeInstruction_jsr (instruction : Nat) (vm : VM) (tty : Console)
    (hword : instruction < 65536) (hop : bits instruction 15 12 = 4) :
    vm.executeInstruction tty instruction = (jsr instruction vm).map (fun v1 => (v1, tty)) := by
  simp [VM.executeInstruction, opcodes.GetOpCode, opcode_of_bits _ _ hword hop, opcodes.JSR]

theorem executeInstruction_and (instruction : Nat) (vm : VM) (tty : Console)
    (hword : instruction < 65536) (hop : bits instruction 15 12 = 5) :
    vm.executeInstruction tty instruction = (and instruction vm).map (fun v1 => (v1, tty)) := by
  simp [VM.executeInstruction, opcodes.GetOpCode, opcode_of_bits _ _ hword hop, opcodes.AND]

theorem executeInstruction_ldr (instruction : Nat) (vm : VM) (tty : Console)
    (hword : instruction < 65536) (hop : bits instruction 15 12 = 6) :
    vm.executeInstruction tty instruction = ldr instruction vm tty := by
  simp [VM.executeInstruction, opcodes.GetOpCode, opcode_of_bits _ _ hword hop, opcodes.LDR]

theorem executeInstruction_str (instruction : Nat) (vm : VM) (tty : Console)
    (hword : instruction < 65536) (hop : bits instruction 15 12 = 7) :
    vm.executeInstruction tty instruction = (str instruction vm).map (fun v1 => (v1, tty)) := by
  simp [VM.executeInstruction, opcodes.GetOpCode, opcode_of_bits _ _ hword hop, opcodes.STR]

theorem executeInstruction_not (instruction : Nat) (vm : VM) (tty : Console)
    (hword : instruction < 65536) (hop : bits instruction 15 12 = 9) :
    vm.executeInstruction tty instruction = (not instruction vm).map (fun v1 => (v1, tty)) := by
  simp [VM.executeInstruction, opcodes.GetOpCode, opcode_of_bits _ _ hword hop, opcodes.NOT]

theorem executeInstruction_ldi (instruction : Nat) (vm : VM) (tty : Console)
    (hword : instruction < 65536) (hop : bits instruction 15 12 = 10) :
    vm.executeInstruction tty instruction = ldi instruction vm tty := by
  simp [VM.executeInstruction, opcodes.GetOpCode, opcode_of_bits _ _ hword hop, opcodes.LDI]

theorem executeInstruction_sti (instruction : Nat) (vm : VM) (tty : Console)
    (hword : instruction < 65536) (hop : bits instruction 15 12 = 11) :
    vm.executeInstruction tty instruction = sti instruction vm tty := by
  simp [VM.executeInstruction, opcodes.GetOpCode, opcode_of_bits _ _ hword hop, opcodes.STI]

theorem executeInstruction_jmp (instruction : Nat) (vm : VM) (tty : Console)
    (hword : instruction < 65536) (hop : bits instruction 15 12 = 12) :
    vm.executeInstruction tty instruction = (jmp instruction vm).map (fun v1 => (v1, tty)) := by
  simp [VM.executeInstruction, opcodes.GetOpCode, opcode_of_bits _ _ hword hop, opcodes.JMP]

theorem executeInstruction_lea (instruction : Nat) (vm : VM) (tty : Console)
    (hword : instruction < 65536) (hop : bits instruction 15 12 = 14) :
    vm.executeInstruction tty instruction = (lea instruction vm).map (fun v1 => (v1, tty)) := by
  simp [VM.executeInstruction, opcodes.GetOpCode, opcode_of_bits _ _ hword hop, opcodes.LEA]

theorem executeInstruction_trap (instruction : Nat) (vm : VM) (tty : Console)
    (hword : instruction < 65536) (hop : bits instruction 15 12 = 15) :
    vm.executeInstruction tty instruction =
      (trap instruction vm tty).map (fun r => (r.1, r.2.1)) := by
  simp [VM.executeInstruction, opcodes.GetOpCode, opcode_of_bits _ _ hword hop, opcodes.TRAP]

theorem executeInstruction_oneFlag (instruction : Nat) (vm vm' : VM) (tty tty' : Console)
    (h : vm.executeInstruction tty instruction = .ok (vm', tty'))
    (hc : OneFlag vm.registers.cond) : OneFlag vm'.registers.cond := by
  unfold VM.executeInstruction at h
  generalize opcodes.GetOpCode instruction = op at h
  dsimp only at h
  by_cases h0 : op = 0
  · rw [if_pos h0] at h
    rw [br_eq, map_ok_eq] at h
    cases h
    split <;> exact hc
  rw [if_neg h0] at h
  by_cases h1 : op = 1
  · rw [if_pos h1] at h
    rw [add_eq, map_ok_eq] at h
    cases h
    exact condOf_oneFlag _
  rw [if_neg h1] at h
  by_cases h2 : op = 2
  · rw [if_pos h2] at h
    rw [ld_eq, bind_eq_ok] at h
    obtain ⟨r, -, h2⟩ := h
    cases h2
    exact condOf_oneFlag _
  rw [if_neg h2] at h
  by_cases h3 : op = 3
  · rw [if_pos h3] at h
    rw [st_eq, map_eq_ok] at h
    obtain ⟨v1, h1, h2⟩ := h
    cases h2
    rw [(WriteMemory_eq_ok _ _ _ _ h1).2.1]
    exact hc
  rw [if_neg h3] at h
  by_cases h4 : op = 4
  · rw [if_pos h4] at h
    rw [jsr_eq, map_ok_eq] at h
    cases h
    split <;> exact hc
  rw [if_neg h4] at h
  by_cases h5 : op = 5
  · rw [if_pos h5] at h
    rw [and_eq, map_ok_eq] at h
    cases h
    exact condOf_oneFlag _
  rw [if_neg h5] at h
  by_cases h6 : op = 6
  · rw [if_pos h6] at h
    rw [ldr_eq, bind_eq_ok] at h
    obtain ⟨r, -, h2⟩ := h
    cases h2
    exact condOf_oneFlag _
  rw [if_neg h6] at h
  by_cases h7 : op = 7
  · rw [if_pos h7] at h
    rw [str_eq, map_eq_ok] at h
    obtain ⟨v1, h1, h2⟩ := h
    cases h2
    rw [(WriteMemory_eq_ok _ _ _ _ h1).2.1]
    exact hc
  rw [if_neg h7] at h
  by_cases h8 : op = 8
  · rw [if_pos h8] at h
    cases h
    exact hc
  rw [if_neg h8] at h
  by_cases h9 : op = 9
  · rw [if_pos h9] at h
    rw [not_eq, map_ok_eq] at h
    cases h
    exact condOf_oneFlag _
  rw [if_neg h9] at h
  by_cases h10 : op = 10
  · rw [if_pos h10] at h
    rw [ldi_eq, bind_eq_ok] at h
    obtain ⟨r1, -, h2⟩ := h
    rw [bind_eq_ok] at h2
    obtain ⟨r, -, h3⟩ := h2
    cases h3
    exact condOf_oneFlag _
  rw [if_neg h10] at h
  by_cases h11 : op = 11
  · rw [if_pos h11] at h
    rw [sti_eq, bind_eq_ok] at h
    obtain ⟨r, h1, h2⟩ := h
    rw [bind_eq_ok] at h2
    obtain ⟨v2, h3, h4⟩ := h2
    cases h4
    rw [(WriteMemory_eq_ok _ _ _ _ h3).2.1, (ReadMemory_eq_ok _ _ _ _ _ _ h1).1]
    exact hc
  rw [if_neg h11] at h
  by_cases h12 : op = 12
  · rw [if_pos h12] at h
    rw [jmp_eq, map_ok_eq] at h
    cases h
    exact hc
  rw [if_neg h12] at h
  by_cases h13 : op = 13
  · rw [if_pos h13] at h
    cases h
    exact hc
  rw [if_neg h13] at h
  by_cases h14 : op = 14
  · rw [if_pos h14] at h
    rw [lea_eq, map_ok_eq] at h
    cases h
    exact condOf_oneFlag _
  rw [if_neg h14] at h
  by_cases h15 : op = 15
  · rw [if_pos h15] at h
    rw [map_eq_ok] at h
    obtain ⟨r, h1, h2⟩ := h
    cases h2
    rw [(trap_eq_ok _ _ _ _ _ _ h1).1]
    exact hc
  rw [if_neg h15] at h
  cases h
  exact hc

theorem ExecuteStep_oneFlag (vm vm' : VM) (tty tty' : Console)
    (h : vm.ExecuteStep tty = .ok (vm', tty'))
    (hc : OneFlag vm.registers.cond) : OneFlag vm'.registers.cond := by
  unfold VM.ExecuteStep at h
  rw [bind_eq_ok] at h
  obtain ⟨⟨x, v1, tty1⟩, h1, h2⟩ := h
  simp only at h2
  refine executeInstruction_oneFlag _ _ _ _ _ h2 ?_
  have hr := (ReadMemory_eq_ok _ _ _ _ _ _ h1).1
  simp only [VM.setPC]
  rw [hr]
  exact hc

theorem NewVM_loop_registers : ∀ (n : Nat) (b : List Nat), b.length ≤ n →
    ∀ (address : Nat) (v vm : VM) (e : Option IOError),
    NewVM.loop b address v = .ok (some vm, e) → vm.registers = v.registers ∧ e = none := by
  intro n
  induction n with
  | zero =>
    intro b hb address v vm e h
    have : b = [] := List.length_eq_zero.mp (Nat.le_zero.mp hb)
    subst this
    unfold NewVM.loop at h
    cases h
    exact ⟨rfl, rfl⟩
  | succ n ih =>
    intro b hb address v vm e h
    match b, hb, h with
    | [], _, h =>
      unfold NewVM.loop at h
      cases h
      exact ⟨rfl, rfl⟩
    | [_], _, h =>
      unfold NewVM.loop at h
      cases h
    | b0 :: b1 :: rest, hb, h =>
      unfold NewVM.loop at h
      simp only at h
      split at h
      · have hlen : rest.length ≤ n := by
          simp only [List.length_cons] at hb
          omega
        have hi := ih rest hlen _ _ _ _ h
        exact hi
      · cases h

theorem NewVM_oneFlag (b : List Nat) (vm : VM) (e : Option IOError)
    (h : NewVM b = .ok (some vm, e)) : vm.registers.cond = register.Zro ∧ e = none := by
  unfold NewVM at h
  simp only at h
  split at h
  · cases h
  · cases h
  · obtain ⟨hr, he⟩ := NewVM_loop_registers _ _ (Nat.le_refl _) _ _ _ _ h
    rw [hr]
    exact ⟨rfl, he⟩

theorem scan_WF (tty : Console) (h : tty.WF) :
    (∀ b ∈ tty.scan.1.text, b < 256) ∧ tty.scan.2.WF := by
  unfold Console.scan
  split
  · rename_i hnil
    refine ⟨fun b hb => ?_, h⟩
    simp at hb
  · rename_i s rest hcons
    refine ⟨fun b hb => h s ?_ b hb, fun s' hs' => h s' ?_⟩
    · rw [hcons]; exact List.mem_cons_self _ _
    · rw [hcons]; exact List.mem_cons_of_mem _ hs'

theorem report_WF (tty : Console) (s : Scan) (h : tty.WF) : (tty.report s).WF := by
  unfold Console.report
  split
  · exact h
  · exact h

theorem handleKeyboard_WF (v v' : VM) (tty tty' : Console)
    (h : v.handleKeyboard tty = .ok (v', tty'))
    (hm : ∀ a, v.memory a < 65536) (ht : tty.WF) :
    (∀ a, v'.memory a < 65536) ∧ tty'.WF := by
  obtain ⟨hb, ht2⟩ := scan_WF tty ht
  unfold VM.handleKeyboard at h
  simp only at h
  split at h
  · cases h
  · rename_i read rest htext
    have hread : read < 256 := hb read (by rw [htext]; exact List.mem_cons_self _ _)
    have hs : register.Kbsr < memoryLen := by decide
    have hd : register.Kbdr < memoryLen := by decide
    split at h
    · rw [WriteMemory_of_lt _ _ _ hs, bind_ok_eq, WriteMemory_of_lt _ _ _ hd, bind_ok_eq,
        pure_eq] at h
      cases h
      refine ⟨fun a => ?_, report_WF _ _ ht2⟩
      show (if a = register.Kbdr then read
        else if a = register.Kbsr then 1 <<< 15 else v.memory a) < 65536
      split
      · omega
      · split
        · decide
        · exact hm a
    · rw [WriteMemory_of_lt _ _ _ hs, bind_ok_eq, pure_eq] at h
      cases h
      refine ⟨fun a => ?_, report_WF _ _ ht2⟩
      show (if a = register.Kbsr then 0 else v.memory a) < 65536
      split
      · decide
      · exact hm a

theorem ReadMemory_WF (v v' : VM) (tty tty' : Console) (index x : Nat)
    (h : v.ReadMemory tty index = .ok (x, v', tty'))
    (hm : ∀ a, v.memory a < 65536) (ht : tty.WF) :
    (∀ a, v'.memory a < 65536) ∧ tty'.WF := by
  unfold VM.ReadMemory at h
  simp only at h
  split at h
  · rw [bind_eq_ok] at h
    obtain ⟨⟨v1, tty1⟩, h1, h2⟩ := h
    simp only at h2
    split at h2
    · rw [pure_eq] at h2
      cases h2
      exact handleKeyboard_WF _ _ _ _ h1 hm ht
    · cases h2
  · rw [pure_eq, bind_ok_eq] at h
    simp only at h
    split at h
    · rw [pure_eq] at h
      cases h
      exact ⟨hm, ht⟩
    · cases h

/-! ## Claims C5 and C6 -/

theorem sampleVM_WF : WF sampleVM := by
  refine ⟨fun _ => Nat.zero_lt_succ _, by decide, by decide, fun a => ?_⟩
  show (if a = 0x3003 then 0x4000 else if a = 0x4000 then 42 else 0) < 65536
  split
  · decide
  · split <;> decide

theorem addStepped_reachable : Reachable addStepped :=
  Reachable.step _ addStepped quietConsole quietConsole
    (Reachable.load addImage _ none rfl) rfl

/-- C5, counterexample.  `JSR +2` (word `0x4802`) executed with `PC = 0x3001` and
condition code Zero writes `R7 = 0x3001`, a positive value, and the condition code is
still Zero; `TRAP 0x20` (GETC) with the input line `A` writes `R0 = 65` and the
condition code is still Zero.  Neither follows the value just written. -/
theorem jsr_and_getc_keep_old_flag :
    (∃ vm', sampleVM.executeInstruction quietConsole 0x4802 = .ok (vm', quietConsole) ∧
      vm'.registers.regs 7 = 0x3001 ∧ vm'.registers.cond = register.Zro ∧
      vm'.registers.cond ≠ flagOf (vm'.registers.regs 7)) ∧
    (∃ vm' tty', sampleVM.executeInstruction lineConsole 0xF020 = .ok (vm', tty') ∧
      vm'.registers.regs 0 = 65 ∧ vm'.registers.cond = register.Zro ∧
      vm'.registers.cond ≠ flagOf (vm'.registers.regs 0)) :=
  ⟨⟨_, rfl, rfl, rfl, by decide⟩, ⟨_, _, rfl, rfl, rfl, by decide⟩⟩

theorem operand2_lt (instruction : Nat) (vm : VM) (hwf : WF vm) :
    vm.registers.regs (bits instruction 8 6) &&& operand2 instruction vm < 65536 :=
  Nat.lt_of_le_of_lt Nat.and_le_left (hwf.1 _)

/-- C5, amended.  For every instruction word, every well-formed state and console:
`ADD`, `AND`, `NOT` and `LEA` always complete, and `LD`, `LDR` and `LDI` whenever they
complete, leave the condition code equal to the flag of the destination register
(bits 11..9): Zero for `0`, Negative when bit 15 is set, Positive otherwise.  `JSR`
always completes, writes `R7 = PC` and leaves the condition code as it was; the traps
`0x20` (GETC) and `0x23` (IN), when they complete, write the first input byte to `R0` and
leave the condition code as it was. -/
theorem cond_follows_register_write (instruction : Nat) (vm : VM) (tty : Console)
    (hword : instruction < 65536) (hwf : WF vm) (hbytes : tty.WF) :
    ((bits instruction 15 12 = 1 ∨ bits instruction 15 12 = 5 ∨
        bits instruction 15 12 = 9 ∨ bits instruction 15 12 = 14) →
      ∃ vm', vm.executeInstruction tty instruction = .ok (vm', tty) ∧
        vm'.registers.cond = flagOf (vm'.registers.regs (bits instruction 11 9))) ∧
    ((bits instruction 15 12 = 2 ∨ bits instruction 15 12 = 6 ∨
        bits instruction 15 12 = 10) →
      ∀ vm' tty', vm.executeInstruction tty instruction = .ok (vm', tty') →
        vm'.registers.cond = flagOf (vm'.registers.regs (bits instruction 11 9))) ∧
    (bits instruction 15 12 = 4 →
      ∃ vm', vm.executeInstruction tty instruction = .ok (vm', tty) ∧
        vm'.registers.regs 7 = vm.registers.PC ∧
        vm'.registers.cond = vm.registers.cond) ∧
    (bits instruction 15 12 = 15 →
      (bits instruction 7 0 = 0x20 ∨ bits instruction 7 0 = 0x23) →
      ∀ vm' tty', vm.executeInstruction tty instruction = .ok (vm', tty') →
        tty.scan.1.text.head? = some (vm'.registers.regs 0) ∧
        vm'.registers.cond = vm.registers.cond) := by
  have hw : ∀ (v : VM) (d x : Nat), x < 65536 →
      (v.writeReg d x).registers.cond = flagOf ((v.writeReg d x).registers.regs d) := by
    intro v d x hx
    simp only [VM.writeReg, if_true]
    exact condOf_eq_flagOf x hx
  have hmod : ∀ n : Nat, n % 65536 < 65536 := fun n => Nat.mod_lt _ (by decide)
  refine ⟨?_, ?_, ?_, ?_⟩
  · rintro (hop | hop | hop | hop)
    · rw [executeInstruction_add _ _ _ hword hop, add_eq, map_ok_eq]
      exact ⟨_, rfl, hw _ _ _ (hmod _)⟩
    · rw [executeInstruction_and _ _ _ hword hop, and_eq, map_ok_eq]
      exact ⟨_, rfl, hw _ _ _ (operand2_lt _ _ hwf)⟩
    · rw [executeInstruction_not _ _ _ hword hop, not_eq, map_ok_eq]
      exact ⟨_, rfl, hw _ _ _ (hmod _)⟩
    · rw [executeInstruction_lea _ _ _ hword hop, lea_eq, map_ok_eq]
      exact ⟨_, rfl, hw _ _ _ (hmod _)⟩
  · rintro (hop | hop | hop) vm' tty' h
    · rw [executeInstruction_ld _ _ _ hword hop, ld_eq, bind_eq_ok] at h
      obtain ⟨r, h1, h2⟩ := h
      cases h2
      exact hw _ _ _ ((ReadMemory_eq_ok _ _ _ _ _ _ h1).2.2.2 hwf.2.2.2)
    · rw [executeInstruction_ldr _ _ _ hword hop, ldr_eq, bind_eq_ok] at h
      obtain ⟨r, h1, h2⟩ := h
      cases h2
      exact hw _ _ _ ((ReadMemory_eq_ok _ _ _ _ _ _ h1).2.2.2 hwf.2.2.2)
    · rw [executeInstruction_ldi _ _ _ hword hop, ldi_eq, bind_eq_ok] at h
      obtain ⟨r1, h1, h2⟩ := h
      rw [bind_eq_ok] at h2
      obtain ⟨r, h3, h4⟩ := h2
      cases h4
      have hm1 := (ReadMemory_WF _ _ _ _ _ _ h1 hwf.2.2.2 hbytes).1
      exact hw _ _ _ ((ReadMemory_eq_ok _ _ _ _ _ _ h3).2.2.2 hm1)
  · intro hop
    rw [executeInstruction_jsr _ _ _ hword hop, jsr_eq, map_ok_eq]
    refine ⟨_, rfl, ?_, ?_⟩ <;> split <;> rfl
  · intro hop hcode vm' tty' h
    rw [executeInstruction_trap _ _ _ hword hop, map_eq_ok] at h
    obtain ⟨r, h1, h2⟩ := h
    cases h2
    obtain ⟨hc, -, -, h0⟩ := trap_eq_ok _ _ _ _ _ _ h1
    exact ⟨h0 hcode, hc⟩

theorem quietConsole_WF : quietConsole.WF := by
  intro s hs
  cases hs

/-- Witness for C5: `LD R0, +2` (word `0x2002`) at `PC = 0x3001` loads
`memory[0x3003] = 0x4000` and the condition code becomes Positive. -/
theorem cond_follows_register_write_witness :
    (0x2002 < 65536 ∧ WF sampleVM ∧ quietConsole.WF) ∧
    ∃ vm', sampleVM.executeInstruction quietConsole 0x2002 = .ok (vm', quietConsole) ∧
      vm'.registers.regs 0 = 0x4000 ∧
      vm'.registers.cond = flagOf (vm'.registers.regs (bits 0x2002 11 9)) ∧
      vm'.registers.cond = register.Pos :=
  ⟨⟨by decide, sampleVM_WF, quietConsole_WF⟩, _, rfl, rfl,
    (cond_follows_register_write 0x2002 sampleVM quietConsole (by decide) sampleVM_WF
      quietConsole_WF).2.1 (Or.inl (by decide)) _ _ rfl, rfl⟩

/-- C6.  The condition register built by `NewRegisters` holds one of `Pos` (1),
`Zro` (2), `Neg` (4), and so does the condition register of every state reached from
a state returned by `NewVM` by any sequence of fetch-execute steps and executed
instructions, under any console input. -/
theorem condition_code_one_flag (vm : VM) (h : Reachable vm) :
    OneFlag register.NewRegisters.cond ∧ OneFlag vm.registers.cond := by
  refine ⟨Or.inr (Or.inl rfl), ?_⟩
  induction h with
  | load b vm e hload =>
    rw [(NewVM_oneFlag b vm e hload).1]
    exact Or.inr (Or.inl rfl)
  | step vm vm' tty tty' _ hstep ih => exact ExecuteStep_oneFlag _ _ _ _ hstep ih
  | exec vm vm' tty tty' instruction _ hexec ih =>
    exact executeInstruction_oneFlag _ _ _ _ _ hexec ih

/-- Witness for C6: the state reached by loading `30 00 10 25` and running one step. -/
theorem condition_code_one_flag_witness :
    Reachable addStepped ∧
      (OneFlag register.NewRegisters.cond ∧ OneFlag addStepped.registers.cond) :=
  ⟨addStepped_reachable, condition_code_one_flag addStepped addStepped_reachable⟩

/-! ## The loader -/

theorem bigEndianUint16_split (w : Nat) (hw : w < 65536) :
    bigEndianUint16 (w / 256) (w % 256) = w := by
  unfold bigEndianUint16
  have h1 : (w / 256) <<< 8 = 2 ^ 8 * (w / 256) := by
    rw [Nat.shiftLeft_eq, Nat.mul_comm]
  have h2 : 2 ^ 8 * (w / 256) % 65536 = 2 ^ 8 * (w / 256) := by
    apply Nat.mod_eq_of_lt
    omega
  have h3 : w % 256 < 2 ^ 8 := Nat.mod_lt _ (by decide)
  rw [h1, h2, Nat.lor_comm, ← Nat.mul_add_lt_is_or h3]
  omega

theorem NewVM_loop_words (ws : List Nat) : ∀ (address : Nat) (v : VM),
    (∀ w ∈ ws, w < 65536) → address + ws.length ≤ 65535 →
    NewVM.loop (bigEndianBytes ws) address v = .ok (some { v with
      memory := fun a =>
        if address ≤ a ∧ a < address + ws.length then ws.getD (a - address) 0
        else v.memory a }, none) := by
  induction ws with
  | nil =>
    intro address v _ _
    unfold bigEndianBytes NewVM.loop
    have : (fun a => if address ≤ a ∧ a < address + ([] : List Nat).length
        then ([] : List Nat).getD (a - address) 0 else v.memory a) = v.memory := by
      funext a
      rw [if_neg]
      simp only [List.length_nil]
      omega
    rw [this]
  | cons w ws ih =>
    intro address v hws hfit
    simp only [List.length_cons] at hfit
    have hw : w < 65536 := hws w (List.mem_cons_self _ _)
    have hlt : address < memoryLen := by
      show address < 65535
      omega
    have hnext : (address + 1) % 65536 = address + 1 := Nat.mod_eq_of_lt (by omega)
    unfold bigEndianBytes NewVM.loop
    simp only
    rw [if_pos hlt, hnext, bigEndianUint16_split w hw,
      ih (address + 1) _ (fun x hx => hws x (List.mem_cons_of_mem _ hx)) (by omega)]
    congr 4
    funext a
    simp only [List.length_cons]
    by_cases h1 : address + 1 ≤ a ∧ a < address + 1 + ws.length
    · have h2 : address ≤ a ∧ a < address + (ws.length + 1) := by omega
      have h3 : a - address = (a - (address + 1)) + 1 := by omega
      rw [if_pos h1, if_pos h2, h3, List.getD_cons_succ]
    · rw [if_neg h1]
      by_cases h4 : a = address
      · have h2 : address ≤ a ∧ a < address + (ws.length + 1) := by omega
        rw [if_pos h4, if_pos h2, h4, Nat.sub_self, List.getD_cons_zero]
      · have h2 : ¬ (address ≤ a ∧ a < address + (ws.length + 1)) := by omega
        rw [if_neg h4, if_neg h2]

/-- C8.  For every origin word `o` and words `w_1 .. w_N` with `o + N ≤ 65535`, `NewVM`
on the big-endian byte stream of `o, w_1, .., w_N` returns a VM and no error; the VM has
`PC = o`, `memory[o + i] = w_(i+1)` for every `i < N`, every other memory word `0`,
every register `0` and condition code `Zro`. -/
theorem NewVM_loads_image (o : Nat) (ws : List Nat) (ho : o < 65536)
    (hws : ∀ w ∈ ws, w < 65536) (hfit : o + ws.length ≤ 65535) :
    ∃ vm, NewVM (bigEndianBytes (o :: ws)) = .ok (some vm, none) ∧
      vm.registers.PC = o ∧
      (∀ i, i < ws.length → ws[i]? = some (vm.memory (o + i))) ∧
      (∀ a, (a < o ∨ o + ws.length ≤ a) → vm.memory a = 0) ∧
      (∀ j, vm.registers.regs j = 0) ∧ vm.registers.cond = register.Zro := by
  unfold bigEndianBytes NewVM
  simp only
  rw [bigEndianUint16_split o ho, NewVM_loop_words ws o _ hws hfit]
  refine ⟨_, rfl, rfl, ?_, ?_, ?_, ?_⟩
  · intro i hi
    have h1 : o ≤ o + i ∧ o + i < o + ws.length := by omega
    simp only [if_pos h1, Nat.add_sub_cancel_left]
    rw [List.getD_eq_getElem?_getD, List.getElem?_eq_getElem hi]
    rfl
  · intro a ha
    have h1 : ¬ (o ≤ a ∧ a < o + ws.length) := by omega
    simp only [if_neg h1]
    rfl
  · intro j
    rfl
  · rfl

/-- Witness for C8: origin `0x3000` followed by the two words `0x1025`, `0xF025`. -/
theorem NewVM_loads_image_witness :
    (0x3000 < 65536 ∧ (∀ w ∈ [0x1025, 0xF025], w < 65536) ∧
      0x3000 + [0x1025, 0xF025].length ≤ 65535) ∧
    ∃ vm, NewVM (bigEndianBytes (0x3000 :: [0x1025, 0xF025])) = .ok (some vm, none) ∧
      vm.registers.PC = 0x3000 ∧
      (∀ i, i < [0x1025, 0xF025].length → [0x1025, 0xF025][i]? = some (vm.memory (0x3000 + i))) ∧
      (∀ a, (a < 0x3000 ∨ 0x3000 + [0x1025, 0xF025].length ≤ a) → vm.memory a = 0) ∧
      (∀ j, vm.registers.regs j = 0) ∧ vm.registers.cond = register.Zro :=
  ⟨⟨by decide, by decide, by decide⟩,
    NewVM_loads_image 0x3000 [0x1025, 0xF025] (by decide) (by decide) (by decide)⟩

/-! ## Claims C7, C9 and C10 -/

theorem WriteMemory_then_ReadMemory (v : VM) (tty : Console) (a x : Nat)
    (ha : a < memoryLen) (hk : a ≠ register.Kbsr) :
    ∃ v', v.WriteMemory a x = .ok v' ∧ v'.ReadMemory tty a = .ok (x, v', tty) ∧
      v'.registers = v.registers ∧ ∀ b, b ≠ a → v'.memory b = v.memory b := by
  rw [WriteMemory_of_lt v a x ha]
  refine ⟨_, rfl, ?_, rfl, fun b hb => ?_⟩
  · rw [ReadMemory_of_plain _ _ _ hk ha]
    simp only [if_true]
  · simp only [if_neg hb]

/-- C7 (the code departs from the claim).  The memory array is declared with length
`^uint16(0) = 65535`, so the 16-bit address `0xFFFF` is not in it: in every state both
`WriteMemory(0xFFFF, x)` and `ReadMemory(0xFFFF)` end in the run-time fault
`index out of range [65535] with length 65535`, where the claim has the write followed
by the read complete and return `x`. -/
theorem memory_lacks_top_word (v : VM) (tty : Console) (x : Nat) :
    memoryLen = 65535 ∧ 0xFFFF ≠ register.Kbsr ∧
    v.WriteMemory 0xFFFF x = .error (.indexOutOfRange 0xFFFF 65535) ∧
    v.ReadMemory tty 0xFFFF = .error (.indexOutOfRange 0xFFFF 65535) :=
  ⟨rfl, by decide, rfl, rfl⟩

/-- C9 (the code departs from the claim).  The five-byte stream `FF FF 00 01 00` has odd
length, so the claim has `NewVM` return an error; the loop of `NewVM` first stores the
whole word `0x0001` at the origin `0xFFFF`, which is outside the 65535-word memory
array, and the call ends in a run-time fault instead of returning. -/
theorem NewVM_faults_before_truncation :
    [0xFF, 0xFF, 0x00, 0x01, 0x00].length % 2 = 1 ∧
    NewVM [0xFF, 0xFF, 0x00, 0x01, 0x00] = .error (.indexOutOfRange 0xFFFF 65535) :=
  ⟨rfl, rfl⟩

theorem NewVM_loop_shape : ∀ (n : Nat) (b : List Nat), b.length ≤ n →
    ∀ (address : Nat) (v : VM) (r : Option VM × Option IOError),
    NewVM.loop b address v = .ok r →
      (r.1.isSome ∧ r.2 = none ∧ b.length % 2 = 0) ∨
      (r.1 = none ∧ r.2 = some .ErrUnexpectedEOF ∧ b.length % 2 = 1) := by
  intro n
  induction n with
  | zero =>
    intro b hb address v r h
    have : b = [] := List.length_eq_zero.mp (Nat.le_zero.mp hb)
    subst this
    unfold NewVM.loop at h
    cases h
    exact Or.inl ⟨rfl, rfl, rfl⟩
  | succ n ih =>
    intro b hb address v r h
    match b, hb, h with
    | [], _, h =>
      unfold NewVM.loop at h
      cases h
      exact Or.inl ⟨rfl, rfl, rfl⟩
    | [_], _, h =>
      unfold NewVM.loop at h
      cases h
      exact Or.inr ⟨rfl, rfl, rfl⟩
    | b0 :: b1 :: rest, hb, h =>
      unfold NewVM.loop at h
      simp only at h
      split at h
      · have hlen : rest.length ≤ n := by
          simp only [List.length_cons] at hb
          omega
        have hi := ih rest hlen _ _ _ h
        simp only [List.length_cons]
        rcases hi with ⟨h1, h2, h3⟩ | ⟨h1, h2, h3⟩
        · exact Or.inl ⟨h1, h2, by omega⟩
        · exact Or.inr ⟨h1, h2, by omega⟩
      · cases h

/-- Whenever `NewVM` returns, it returns either a VM
and no error, on a stream of at least 2 bytes and of even length, or no VM and an error,
on a stream shorter than 2 bytes or of odd length. -/
theorem NewVM_returns_vm_xor_error (b : List Nat) (r : Option VM × Option IOError)
    (h : NewVM b = .ok r) :
    (r.1.isSome ∧ r.2 = none ∧ 2 ≤ b.length ∧ b.length % 2 = 0) ∨
    (r.1 = none ∧ r.2.isSome ∧ (b.length < 2 ∨ b.length % 2 = 1)) := by
  unfold NewVM at h
  simp only at h
  split at h
  · cases h
    exact Or.inr ⟨rfl, rfl, Or.inl (by simp)⟩
  · cases h
    exact Or.inr ⟨rfl, rfl, Or.inl (by simp)⟩
  · rename_i b0 b1 rest
    rcases NewVM_loop_shape _ _ (Nat.le_refl _) _ _ _ h with ⟨h1, h2, h3⟩ | ⟨h1, h2, h3⟩
    · refine Or.inl ⟨h1, h2, ?_, ?_⟩
      · simp only [List.length_cons]; omega
      · simp only [List.length_cons]; omega
    · refine Or.inr ⟨h1, by rw [h2]; rfl, Or.inr ?_⟩
      simp only [List.length_cons]; omega

/-- C10.  For every state with `PC = p`, `p < 0xFFFF`, `p ≠ 0xFE00`, whose `memory[p]` is
a `JSR` word with bit 11 set, one fetch-execute step completes without console traffic
and sets `R7 = p + 1` and `PC = (p + 1 + signExtend(bits 10..0, 11)) mod 65536`; in the
resulting state every `JMP` word whose base-register field is 7 completes and sets `PC`
back to `p + 1`. -/
theorem jsr_then_ret (vm : VM) (tty : Console) (p instruction ret : Nat)
    (hpc : vm.registers.PC = p) (hp : p < 0xFFFF) (hk : p ≠ 0xFE00)
    (hmem : vm.memory p = instruction) (hword : instruction < 65536)
    (hop : bits instruction 15 12 = 4) (hlong : bits instruction 11 11 = 1)
    (hret : ret < 65536) (hrop : bits ret 15 12 = 12) (hbase : bits ret 8 6 = 7) :
    ∃ vm1, vm.ExecuteStep tty = .ok (vm1, tty) ∧
      vm1.registers.regs 7 = p + 1 ∧
      vm1.registers.PC = (p + 1 + signExtend (bits instruction 10 0) 11) % 65536 ∧
      ∃ vm2, vm1.executeInstruction tty ret = .ok (vm2, tty) ∧
        vm2.registers.PC = p + 1 := by
  have hnext : (p + 1) % 65536 = p + 1 := Nat.mod_eq_of_lt (by omega)
  have hlong' : bits instruction 11 11 ≠ 0 := by omega
  unfold VM.ExecuteStep
  rw [hpc, ReadMemory_of_plain vm tty p hk hp, bind_ok_eq]
  simp only
  rw [hmem, executeInstruction_jsr _ _ _ hword hop, jsr_eq, map_ok_eq, if_pos hlong']
  refine ⟨_, rfl, ?_, ?_, ?_⟩
  · simp only [VM.setPC, VM.link, if_true, hpc, hnext]
  · simp only [VM.setPC, VM.link, hpc, hnext]
  · rw [executeInstruction_jmp _ _ _ hret hrop, jmp_eq, map_ok_eq, hbase]
    refine ⟨_, rfl, ?_⟩
    simp only [VM.setPC, VM.link, if_true, hpc, hnext]

/-- Witness for C10: `JSR +2` (word `0x4802`) fetched at `0x3000` gives `R7 = 0x3001` and
`PC = 0x3003`; `JMP R7` (word `0xC1C0`) then gives `PC = 0x3001`. -/
theorem jsr_then_ret_witness :
    (callVM.registers.PC = 0x3000 ∧ 0x3000 < 0xFFFF ∧ 0x3000 ≠ 0xFE00 ∧
      callVM.memory 0x3000 = 0x4802 ∧ 0x4802 < 65536 ∧ bits 0x4802 15 12 = 4 ∧
      bits 0x4802 11 11 = 1 ∧ 0xC1C0 < 65536 ∧ bits 0xC1C0 15 12 = 12 ∧
      bits 0xC1C0 8 6 = 7 ∧ bits 0x4802 10 0 = 2) ∧
    ∃ vm1, callVM.ExecuteStep quietConsole = .ok (vm1, quietConsole) ∧
      vm1.registers.regs 7 = 0x3000 + 1 ∧
      vm1.registers.PC = (0x3000 + 1 + signExtend (bits 0x4802 10 0) 11) % 65536 ∧
      ∃ vm2, vm1.executeInstruction quietConsole 0xC1C0 = .ok (vm2, quietConsole) ∧
        vm2.registers.PC = 0x3000 + 1 :=
  ⟨by decide, jsr_then_ret callVM quietConsole 0x3000 0x4802 0xC1C0 rfl (by decide)
    (by decide) rfl (by decide) (by decide) (by decide) (by decide) (by decide) (by decide)⟩

/-- The numbers of the specification's JSR/RET scenario. -/
theorem jsr_then_ret_numbers :
    ∃ vm1, callVM.ExecuteStep quietConsole = .ok (vm1, quietConsole) ∧
      vm1.registers.regs 7 = 0x3001 ∧ vm1.registers.PC = 0x3003 ∧
      ∃ vm2, vm1.executeInstruction quietConsole 0xC1C0 = .ok (vm2, quietConsole) ∧
        vm2.registers.PC = 0x3001 :=
  ⟨_, rfl, rfl, rfl, _, rfl, rfl⟩

/-! ## The printing loops never run out of budget -/

theorem handleKeyboard_ne_fuel (v : VM) (tty : Console) :
    v.handleKeyboard tty ≠ .error .fuelExhausted := by
  intro h
  unfold VM.handleKeyboard at h
  simp only at h
  have hs : register.Kbsr < memoryLen := by decide
  have hd : register.Kbdr < memoryLen := by decide
  split at h
  · cases h
  · split at h
    · rw [WriteMemory_of_lt _ _ _ hs, bind_ok_eq, WriteMemory_of_lt _ _ _ hd, bind_ok_eq,
        pure_eq] at h
      cases h
    · rw [WriteMemory_of_lt _ _ _ hs, bind_ok_eq, pure_eq] at h
      cases h

theorem ReadMemory_ne_fuel (v : VM) (tty : Console) (index : Nat) :
    v.ReadMemory tty index ≠ .error .fuelExhausted := by
  intro h
  unfold VM.ReadMemory at h
  simp only at h
  split at h
  · cases hk : v.handleKeyboard tty with
    | error e =>
      rw [hk, bind_error_eq] at h
      cases h
      exact handleKeyboard_ne_fuel v tty hk
    | ok r =>
      rw [hk, bind_ok_eq] at h
      split at h <;> cases h
  · rw [pure_eq, bind_ok_eq] at h
    simp only at h
    split at h <;> cases h

theorem ReadMemoryLogged_ne_fuel (v : VM) (tty : Console) (log : List Nat) (index : Nat) :
    v.ReadMemoryLogged tty log index ≠ .error .fuelExhausted :=
  fun h => ReadMemory_ne_fuel v tty index (ReadMemoryLogged_eq_error _ _ _ _ _ h)

theorem putsLoop_ne_fuel (fuel : Nat) : ∀ (vm : VM) (tty : Console) (log : List Nat)
    (idx c : Nat), idx < memoryLen → memoryLen ≤ idx + fuel →
    putsLoop fuel vm tty log idx c ≠ .error .fuelExhausted := by
  induction fuel with
  | zero =>
    intro vm tty log idx c hidx hfuel
    omega
  | succ n ih =>
    intro vm tty log idx c hidx hfuel h
    have hm : memoryLen = 65535 := rfl
    have hnext : (idx + 1) % 65536 = idx + 1 := Nat.mod_eq_of_lt (by omega)
    unfold putsLoop at h
    split at h
    · simp only at h
      rw [hnext] at h
      cases hr : vm.ReadMemoryLogged (tty.print [fmtC c]) log (idx + 1) with
      | error e =>
        rw [hr, bind_error_eq] at h
        cases h
        exact ReadMemoryLogged_ne_fuel _ _ _ _ hr
      | ok r =>
        obtain ⟨c1, vm1, tty1, log1⟩ := r
        rw [hr, bind_ok_eq] at h
        have hlt := (ReadMemory_eq_ok _ _ _ _ _ _
          (ReadMemoryLogged_eq_ok _ _ _ _ _ _ _ _ hr).1).2.2.1
        exact ih vm1 tty1 log1 (idx + 1) c1 hlt (by omega) h
    · cases h

theorem putspLoop_ne_fuel (fuel : Nat) : ∀ (vm : VM) (tty : Console) (log : List Nat)
    (idx c : Nat), idx < memoryLen → memoryLen ≤ idx + fuel →
    putspLoop fuel vm tty log idx c ≠ .error .fuelExhausted := by
  induction fuel with
  | zero =>
    intro vm tty log idx c hidx hfuel
    omega
  | succ n ih =>
    intro vm tty log idx c hidx hfuel h
    have hm : memoryLen = 65535 := rfl
    have hnext : (idx + 1) % 65536 = idx + 1 := Nat.mod_eq_of_lt (by omega)
    unfold putspLoop at h
    split at h
    · simp only at h
      rw [hnext] at h
      generalize (if c >>> 8 ≠ 0 then (tty.print [fmtC (c &&& 0xFF)]).print [fmtC (c >>> 8)]
        else tty.print [fmtC (c &&& 0xFF)]) = tty2 at h
      cases hr : vm.ReadMemoryLogged tty2 log (idx + 1) with
      | error e =>
        rw [hr, bind_error_eq] at h
        cases h
        exact ReadMemoryLogged_ne_fuel _ _ _ _ hr
      | ok r =>
        obtain ⟨c1, vm1, tty1, log1⟩ := r
        rw [hr, bind_ok_eq] at h
        have hlt := (ReadMemory_eq_ok _ _ _ _ _ _
          (ReadMemoryLogged_eq_ok _ _ _ _ _ _ _ _ hr).1).2.2.1
        exact ih vm1 tty1 log1 (idx + 1) c1 hlt (by omega) h
    · cases h

/-- The budget `memoryLen + 1` that `trap` gives its two printing loops is never used
up: `trap` ends with a result, a run-time fault or a process exit. -/
theorem trap_ne_fuel (instruction : Nat) (vm : VM) (tty : Console) :
    trap instruction vm tty ≠ .error .fuelExhausted := by
  intro h
  unfold trap at h
  simp only at h
  split at h
  · split at h
    · cases h
    · rw [Update_zero, bind_ok_eq, pure_eq] at h
      cases h
  · split at h
    · rw [Get_zero, bind_ok_eq, pure_eq] at h
      cases h
    · split at h
      · rw [Get_zero, bind_ok_eq] at h
        cases hr : vm.ReadMemoryLogged tty [] (vm.registers.regs 0) with
        | error e =>
          rw [hr, bind_error_eq] at h
          cases h
          exact ReadMemoryLogged_ne_fuel _ _ _ _ hr
        | ok r =>
          obtain ⟨c1, vm1, tty1, log1⟩ := r
          rw [hr, bind_ok_eq] at h
          have hlt := (ReadMemory_eq_ok _ _ _ _ _ _
            (ReadMemoryLogged_eq_ok _ _ _ _ _ _ _ _ hr).1).2.2.1
          exact putsLoop_ne_fuel _ vm1 tty1 log1 _ c1 hlt (by omega) h
      · split at h
        · split at h
          · cases h
          · rw [Update_zero, bind_ok_eq, pure_eq] at h
            cases h
        · split at h
          · rw [Get_zero, bind_ok_eq] at h
            cases hr : vm.ReadMemoryLogged tty [] (vm.registers.regs 0) with
            | error e =>
              rw [hr, bind_error_eq] at h
              cases h
              exact ReadMemoryLogged_ne_fuel _ _ _ _ hr
            | ok r =>
              obtain ⟨c1, vm1, tty1, log1⟩ := r
              rw [hr, bind_ok_eq] at h
              have hlt := (ReadMemory_eq_ok _ _ _ _ _ _
                (ReadMemoryLogged_eq_ok _ _ _ _ _ _ _ _ hr).1).2.2.1
              exact putspLoop_ne_fuel _ vm1 tty1 log1 _ c1 hlt (by omega) h
          · split at h <;> cases h

/-! ## Claims C11, C16, C17 and C19 -/

/-- C11.  For every 5-bit immediate `imm`, `NewVM` on the 4-byte image of origin `0x3000`
and the word `0x1020 | imm` (`ADD R0, R0, #imm`) returns a VM, and one fetch-execute
step of that VM completes without console traffic with `R0 = signExtend(imm, 5)`,
`PC = 0x3001` and the condition code the flag of that value. -/
theorem load_then_step_add (imm : Nat) (tty : Console) (himm : imm < 32) :
    ∃ vm vm', NewVM (bigEndianBytes [0x3000, 0x1020 ||| imm]) = .ok (some vm, none) ∧
      vm.ExecuteStep tty = .ok (vm', tty) ∧
      vm'.registers.regs 0 = signExtend imm 5 ∧ vm'.registers.PC = 0x3001 ∧
      vm'.registers.cond = flagOf (vm'.registers.regs 0) := by
  interval_cases imm
  all_goals refine ⟨_, _, rfl, rfl, rfl, rfl, ?_⟩
  all_goals decide

/-- Witness for C11: `imm = 5`. -/
theorem load_then_step_add_witness :
    5 < 32 ∧
    ∃ vm vm', NewVM (bigEndianBytes [0x3000, 0x1020 ||| 5]) = .ok (some vm, none) ∧
      vm.ExecuteStep quietConsole = .ok (vm', quietConsole) ∧
      vm'.registers.regs 0 = signExtend 5 5 ∧ vm'.registers.PC = 0x3001 ∧
      vm'.registers.cond = flagOf (vm'.registers.regs 0) :=
  ⟨by decide, load_then_step_add 5 quietConsole (by decide)⟩

/-- The numbers of the specification's round-trip scenario: the image bytes
`30 00 10 25` give `R0 = 5`, `PC = 0x3001` and condition code `Pos`. -/
theorem load_then_step_add_five :
    bigEndianBytes [0x3000, 0x1020 ||| 5] = addImage ∧
    ∃ vm, NewVM addImage = .ok (some vm, none) ∧
      vm.ExecuteStep quietConsole = .ok (addStepped, quietConsole) ∧
      addStepped.registers.regs 0 = 5 ∧ addStepped.registers.PC = 0x3001 ∧
      addStepped.registers.cond = register.Pos :=
  ⟨by decide, _, rfl, rfl, rfl, rfl, rfl⟩

theorem top_nibble_lt (i : Nat) (hi : i < 65536) : i >>> 12 < 16 := by
  rw [Nat.shiftRight_eq_div_pow]
  omega

theorem GetOpCode_of_lt (t : Nat) (ht : t < 16) (i : Nat) (h : i >>> 12 = t) :
    opcodes.GetOpCode i = t := by
  unfold opcodes.GetOpCode
  simp only [h]
  interval_cases t <;> rfl

/-- C16.  For every 16-bit word `i`, `GetOpCode i` is the entry at position `i >> 12` of
the list `BR, ADD, LD, ST, JSR, AND, LDR, STR, RTI, NOT, LDI, STI, JMP, RES, LEA, TRAP`;
it is the number in bits 15..12, two words with the same top four bits decode alike,
and the result is never `UNKNOWN`. -/
theorem GetOpCode_decodes_top_nibble (i : Nat) (hi : i < 65536) :
    opcodeList[i >>> 12]? = some (opcodes.GetOpCode i) ∧
    opcodes.GetOpCode i = bits i 15 12 ∧
    (∀ j, j < 65536 → bits j 15 12 = bits i 15 12 →
      opcodes.GetOpCode j = opcodes.GetOpCode i) ∧
    opcodes.GetOpCode i ≠ opcodes.UNKNOWN := by
  have hb : ∀ k, k < 65536 → opcodes.GetOpCode k = bits k 15 12 := by
    intro k hk
    rw [GetOpCode_of_lt _ (top_nibble_lt k hk) k rfl]
    exact opcode_of_bits k _ hk rfl
  have ht := top_nibble_lt i hi
  have hg := GetOpCode_of_lt _ ht i rfl
  refine ⟨?_, hb i hi, fun j hj hji => ?_, ?_⟩
  · rw [hg]
    generalize i >>> 12 = t at ht
    interval_cases t <;> rfl
  · rw [hb j hj, hb i hi, hji]
  · rw [hg]
    show i >>> 12 ≠ 16
    omega

/-- Witness for C16: the word `0xF025` decodes to `TRAP`. -/
theorem GetOpCode_decodes_top_nibble_witness :
    0xF025 < 65536 ∧
    (opcodeList[0xF025 >>> 12]? = some (opcodes.GetOpCode 0xF025) ∧
    opcodes.GetOpCode 0xF025 = bits 0xF025 15 12 ∧
    (∀ j, j < 65536 → bits j 15 12 = bits 0xF025 15 12 →
      opcodes.GetOpCode j = opcodes.GetOpCode 0xF025) ∧
    opcodes.GetOpCode 0xF025 ≠ opcodes.UNKNOWN) :=
  ⟨by decide, GetOpCode_decodes_top_nibble 0xF025 (by decide)⟩

/-- C17.  For every state with `PC = p`, `p < 0xFFFF`, `p ≠ 0xFE00`, whose `memory[p]` is
an `LEA` word with destination `d` (bits 11..9) and offset field `k` (bits 8..0), one
fetch-execute step completes without console traffic; afterwards register `d` holds
`(p + 1 + signExtend(k, 9)) mod 65536`, `PC = p + 1`, the condition code is the flag
of the new value of register `d`, and memory and all other registers are unchanged. -/
theorem lea_uses_advanced_pc (vm : VM) (tty : Console) (p instruction : Nat)
    (hpc : vm.registers.PC = p) (hp : p < 0xFFFF) (hk : p ≠ 0xFE00)
    (hmem : vm.memory p = instruction) (hword : instruction < 65536)
    (hop : bits instruction 15 12 = 14) :
    ∃ vm', vm.ExecuteStep tty = .ok (vm', tty) ∧
      vm'.registers.regs (bits instruction 11 9) =
        (p + 1 + signExtend (bits instruction 8 0) 9) % 65536 ∧
      vm'.registers.PC = p + 1 ∧
      vm'.registers.cond = flagOf (vm'.registers.regs (bits instruction 11 9)) ∧
      vm'.memory = vm.memory ∧
      (∀ j, j ≠ bits instruction 11 9 → vm'.registers.regs j = vm.registers.regs j) := by
  have hnext : (p + 1) % 65536 = p + 1 := Nat.mod_eq_of_lt (by omega)
  unfold VM.ExecuteStep
  rw [hpc, ReadMemory_of_plain vm tty p hk hp, bind_ok_eq]
  simp only
  rw [hmem, executeInstruction_lea _ _ _ hword hop, lea_eq, map_ok_eq]
  refine ⟨_, rfl, ?_, ?_, ?_, rfl, ?_⟩
  · simp only [VM.writeReg, VM.setPC, if_true, hpc, hnext]
  · simp only [VM.writeReg, VM.setPC, hpc, hnext]
  · simp only [VM.writeReg, if_true]
    exact condOf_eq_flagOf _ (Nat.mod_lt _ (by decide))
  · intro j hj
    simp only [VM.writeReg, VM.setPC, if_neg hj]

/-- C19.  Every `JSR` word with bit 11 clear completes without console traffic and
leaves `R7` equal to the `PC` before execution; when the base-register field
(bits 8..6) is 7, `PC` is left equal to its value before execution, whatever `R7`
held; for any other base register `PC` becomes that register's prior value.  The
condition code and memory are unchanged. -/
theorem jsr_register_mode (instruction : Nat) (vm : VM) (tty : Console)
    (hword : instruction < 65536) (hop : bits instruction 15 12 = 4)
    (hreg : bits instruction 11 11 = 0) :
    ∃ vm', vm.executeInstruction tty instruction = .ok (vm', tty) ∧
      vm'.registers.regs 7 = vm.registers.PC ∧
      (bits instruction 8 6 = 7 → vm'.registers.PC = vm.registers.PC) ∧
      (bits instruction 8 6 ≠ 7 →
        vm'.registers.PC = vm.registers.regs (bits instruction 8 6)) ∧
      vm'.registers.cond = vm.registers.cond ∧ vm'.memory = vm.memory := by
  have hreg' : ¬ bits instruction 11 11 ≠ 0 := fun h => h hreg
  rw [executeInstruction_jsr _ _ _ hword hop, jsr_eq, map_ok_eq, if_neg hreg']
  refine ⟨_, rfl, ?_, ?_, ?_, rfl, rfl⟩
  · simp only [VM.setPC, VM.link, if_true]
  · intro h7
    simp only [VM.setPC, VM.link, h7, if_true]
  · intro h7
    simp only [VM.setPC, VM.link, if_neg h7]

/-- Witness for C17: `LEA R0, +2` (word `0xE002`) fetched at `0x3000` gives
`R0 = 0x3003`. -/
theorem lea_uses_advanced_pc_witness :
    (leaVM.registers.PC = 0x3000 ∧ 0x3000 < 0xFFFF ∧ 0x3000 ≠ 0xFE00 ∧
      leaVM.memory 0x3000 = 0xE002 ∧ 0xE002 < 65536 ∧ bits 0xE002 15 12 = 14 ∧
      (0x3000 + 1 + signExtend (bits 0xE002 8 0) 9) % 65536 = 0x3003) ∧
    ∃ vm', leaVM.ExecuteStep quietConsole = .ok (vm', quietConsole) ∧
      vm'.registers.regs (bits 0xE002 11 9) =
        (0x3000 + 1 + signExtend (bits 0xE002 8 0) 9) % 65536 ∧
      vm'.registers.PC = 0x3000 + 1 ∧
      vm'.registers.cond = flagOf (vm'.registers.regs (bits 0xE002 11 9)) ∧
      vm'.memory = leaVM.memory ∧
      (∀ j, j ≠ bits 0xE002 11 9 → vm'.registers.regs j = leaVM.registers.regs j) :=
  ⟨by decide, lea_uses_advanced_pc leaVM quietConsole 0x3000 0xE002 rfl (by decide)
    (by decide) rfl (by decide) (by decide)⟩

/-- Witness for C19: `JSRR R7` (word `0x41C0`) at `PC = 0x3001` with `R7 = 0` leaves
`R7 = PC = 0x3001`. -/
theorem jsr_register_mode_witness :
    (0x41C0 < 65536 ∧ bits 0x41C0 15 12 = 4 ∧ bits 0x41C0 11 11 = 0 ∧
      bits 0x41C0 8 6 = 7 ∧ wrapVM.registers.regs 7 = 0 ∧ wrapVM.registers.PC = 0x3001) ∧
    ∃ vm', wrapVM.executeInstruction quietConsole 0x41C0 = .ok (vm', quietConsole) ∧
      vm'.registers.regs 7 = wrapVM.registers.PC ∧
      (bits 0x41C0 8 6 = 7 → vm'.registers.PC = wrapVM.registers.PC) ∧
      (bits 0x41C0 8 6 ≠ 7 →
        vm'.registers.PC = wrapVM.registers.regs (bits 0x41C0 8 6)) ∧
      vm'.registers.cond = wrapVM.registers.cond ∧ vm'.memory = wrapVM.memory :=
  ⟨by decide, jsr_register_mode 0x41C0 wrapVM quietConsole (by decide) (by decide)
    (by decide)⟩

/-! ## The keyboard poll: claims C13 and C14 -/

theorem handleKeyboard_of_text (v : VM) (tty : Console) (s : Scan) (rest : List Scan)
    (b : Nat) (bs : List Nat) (hin : tty.stdin = s :: rest) (htext : s.text = b :: bs) :
    v.handleKeyboard tty = .ok
      ({ v with
          memory := fun a =>
            if b ≠ 0 then
              (if a = register.Kbdr then b
               else if a = register.Kbsr then 1 <<< 15 else v.memory a)
            else (if a = register.Kbsr then 0 else v.memory a) },
        Console.report { tty with stdin := rest } s) := by
  have hs : register.Kbsr < memoryLen := by decide
  have hd : register.Kbdr < memoryLen := by decide
  have hscan : tty.scan = (s, { tty with stdin := rest }) := by
    unfold Console.scan
    rw [hin]
  unfold VM.handleKeyboard
  rw [hscan]
  simp only [htext]
  by_cases hb : b ≠ 0
  · simp only [if_pos hb, WriteMemory_of_lt _ _ _ hs, bind_ok_eq, WriteMemory_of_lt _ _ _ hd,
      pure_eq]
  · simp only [if_neg hb, WriteMemory_of_lt _ _ _ hs, bind_ok_eq, pure_eq]

theorem handleKeyboard_of_empty (v : VM) (tty : Console) (h : tty.scan.1.text = []) :
    v.handleKeyboard tty = .error (.indexOutOfRange 0 0) := by
  unfold VM.handleKeyboard
  simp only [h]

theorem ReadMemory_Kbsr (v : VM) (tty : Console) :
    v.ReadMemory tty register.Kbsr =
      (v.handleKeyboard tty) >>= fun r => .ok (r.1.memory register.Kbsr, r.1, r.2) := by
  have hs : register.Kbsr < memoryLen := by decide
  unfold VM.ReadMemory
  simp only [if_true, if_pos hs, pure_eq]

/-- C13, counterexample.  The input line consisting of the single byte `0` is not empty,
yet `ReadMemory(0xFE00)` returns the status word `0`, whose bit 15 is clear, and the data
register `memory[0xFE02]` keeps its old value `0x41`. -/
theorem keyboard_poll_nul_line_not_ready :
    (∃ s rest, nulConsole.stdin = s :: rest ∧ s.text ≠ []) ∧
    ∃ v' tty', polledVM.ReadMemory nulConsole register.Kbsr = .ok (0, v', tty') ∧
      Nat.testBit 0 15 = false ∧ v'.memory register.Kbsr = 0 ∧
      polledVM.memory register.Kbdr = 0x41 ∧ v'.memory register.Kbdr = 0x41 :=
  ⟨⟨_, _, rfl, by decide⟩, _, _, rfl, by decide, rfl, rfl, rfl⟩

/-- C13, amended.  For every VM state and every console whose next input line is not
empty, `ReadMemory(0xFE00)` completes, consumes that line and returns the word then
stored at `0xFE00`; registers and every memory word other than `0xFE00` and `0xFE02` are
unchanged.  When the first byte `b` of the line is not `0`, `memory[0xFE02] = b` and
the word at `0xFE00`, which is returned, is `0x8000` (bit 15 set); when the first byte is
`0`, the word at `0xFE00` is cleared to `0` and `memory[0xFE02]` is unchanged. -/
theorem keyboard_poll_with_input (v : VM) (tty : Console) (s : Scan) (rest : List Scan)
    (b : Nat) (bs : List Nat) (hin : tty.stdin = s :: rest) (htext : s.text = b :: bs) :
    ∃ v' tty', v.ReadMemory tty register.Kbsr = .ok (v'.memory register.Kbsr, v', tty') ∧
      tty'.stdin = rest ∧ tty'.stdout = tty.stdout ∧ v'.registers = v.registers ∧
      (∀ a, a ≠ register.Kbsr → a ≠ register.Kbdr → v'.memory a = v.memory a) ∧
      (b ≠ 0 → v'.memory register.Kbdr = b ∧ v'.memory register.Kbsr = 0x8000 ∧
        (v'.memory register.Kbsr).testBit 15 = true) ∧
      (b = 0 → v'.memory register.Kbdr = v.memory register.Kbdr ∧
        v'.memory register.Kbsr = 0) := by
  rw [ReadMemory_Kbsr, handleKeyboard_of_text v tty s rest b bs hin htext, bind_ok_eq]
  refine ⟨_, _, rfl, ?_, ?_, rfl, ?_, ?_, ?_⟩
  · cases hf : s.failed <;> simp [Console.report, hf]
  · cases hf : s.failed <;> simp [Console.report, hf]
  · intro a h1 h2
    simp only [if_neg h1, if_neg h2, ite_self]
  · intro hb
    have hne : register.Kbsr ≠ register.Kbdr := by decide
    simp only [if_pos hb, if_true, if_neg hne]
    exact ⟨trivial, by decide, by decide⟩
  · intro hb
    have hb' : ¬ b ≠ 0 := fun h => h hb
    simp only [if_neg hb', if_true]
    refine ⟨?_, trivial⟩
    rw [if_neg (by decide)]

/-- Witness for C13: the input line `A` polled in the sample state. -/
theorem keyboard_poll_with_input_witness :
    (lineConsole.stdin = [{ text := [65], failed := false }] ∧ (65 : Nat) ≠ 0) ∧
    ∃ v' tty', sampleVM.ReadMemory lineConsole register.Kbsr = .ok (0x8000, v', tty') ∧
      v'.memory register.Kbdr = 65 ∧ v'.memory register.Kbsr = 0x8000 ∧
      Nat.testBit 0x8000 15 = true := by
  obtain ⟨v', tty', h, -, -, -, -, h1, -⟩ :=
    keyboard_poll_with_input sampleVM lineConsole { text := [65], failed := false } [] 65 []
      rfl rfl
  obtain ⟨hd, hs, -⟩ := h1 (by decide)
  rw [hs] at h
  exact ⟨⟨rfl, by decide⟩, v', tty', h, hd, hs, by decide⟩

/-- C14 (the code departs from the claim).  When the console supplies no input, whether
by end of input, an empty line or a read error, `scanner.Text()` is empty and
`handleKeyboard` indexes it at `[0]`: in every state the very first `ReadMemory(0xFE00)`
ends in the run-time fault `index out of range [0] with length 0`, where the claim has
it complete and return a status word with bit 15 clear. -/
theorem keyboard_poll_without_input_faults (v : VM) :
    v.ReadMemory quietConsole register.Kbsr = .error (.indexOutOfRange 0 0) ∧
    v.ReadMemory emptyLineConsole register.Kbsr = .error (.indexOutOfRange 0 0) ∧
    v.ReadMemory failedConsole register.Kbsr = .error (.indexOutOfRange 0 0) :=
  ⟨rfl, rfl, rfl⟩

/-! ## The run loop: claim C15 -/

theorem Execute_of_guard_fails (fuel : Nat) (vm : VM) (tty : Console)
    (h : ¬ vm.registers.PC < memoryLen) : VM.Execute fuel vm tty = .ok (true, vm, tty) := by
  unfold VM.Execute
  rw [if_neg h, pure_eq]

theorem Execute_returns_at_top (fuel : Nat) : ∀ (vm vm' : VM) (tty tty' : Console),
    VM.Execute fuel vm tty = .ok (true, vm', tty') → ¬ vm'.registers.PC < memoryLen := by
  induction fuel with
  | zero =>
    intro vm vm' tty tty' h
    unfold VM.Execute at h
    split at h
    · rw [pure_eq] at h
      cases h
    · rename_i hg
      rw [pure_eq] at h
      cases h
      exact hg
  | succ n ih =>
    intro vm vm' tty tty' h
    unfold VM.Execute at h
    split at h
    · simp only at h
      rw [bind_eq_ok] at h
      obtain ⟨⟨v1, tty1⟩, -, h2⟩ := h
      exact ih _ _ _ _ h2
    · rename_i hg
      rw [pure_eq] at h
      cases h
      exact hg

theorem ExecuteStep_no_wrap (vm : VM) (tty : Console) (h : vm.registers.PC < memoryLen) :
    vm.ExecuteStep tty =
      (vm.ReadMemory tty vm.registers.PC) >>= fun r =>
        (r.2.1.setPC (vm.registers.PC + 1)).executeInstruction r.2.2 r.1 := by
  have hnext : (vm.registers.PC + 1) % 65536 = vm.registers.PC + 1 :=
    Nat.mod_eq_of_lt (by have : memoryLen = 65535 := rfl; omega)
  unfold VM.ExecuteStep
  cases hr : vm.ReadMemory tty vm.registers.PC with
  | error e => rfl
  | ok r =>
    obtain ⟨x, v1, tty1⟩ := r
    rw [bind_ok_eq, bind_ok_eq]
    simp only
    rw [(ReadMemory_eq_ok _ _ _ _ _ _ hr).1, hnext]

/-- C15, counterexample.  The image `FF FE 10 20` loads `ADD R0, R0, #0` at the origin
`0xFFFE`.  At the loop head `PC = 0xFFFE` passes the guard; the one fetch-execute step
leaves `PC = 0xFFFF`, a state at the loop head in which the guard `PC < 0xFFFF` fails,
and `Execute` leaves its loop and returns normally: no trap ran and execution did not
continue at address `0`. -/
theorem run_loop_exits_at_top :
    ∃ vm vm', NewVM topImage = .ok (some vm, none) ∧
      vm.registers.PC = 0xFFFE ∧
      vm.ExecuteStep quietConsole = .ok (vm', quietConsole) ∧
      LoopHead vm' quietConsole ∧
      vm'.registers.PC = 0xFFFF ∧ ¬ vm'.registers.PC < 0xFFFF ∧
      VM.Execute 5 vm quietConsole = .ok (true, vm', quietConsole) :=
  ⟨_, _, rfl, rfl, rfl,
    LoopHead.step _ _ quietConsole quietConsole (LoopHead.load topImage _ _ rfl)
      (by decide) rfl,
    rfl, by decide, rfl⟩

/-- C15, amended.  The guard of the run loop can fail.  In a state with `PC = 0xFFFF`
`Execute` leaves its loop at once and returns that state; whenever `Execute` returns
through its guard, the returned state has `PC` not below `0xFFFF`; and while
`PC < 0xFFFF` an iteration fetches at `PC` and executes the fetched word with
`PC + 1`, an increment that does not wrap. -/
theorem run_loop_guard (fuel : Nat) (vm : VM) (tty : Console) :
    (vm.registers.PC = 0xFFFF → VM.Execute fuel vm tty = .ok (true, vm, tty)) ∧
    (∀ vm' tty', VM.Execute fuel vm tty = .ok (true, vm', tty') →
      ¬ vm'.registers.PC < 0xFFFF) ∧
    (vm.registers.PC < 0xFFFF →
      vm.registers.PC + 1 ≤ 0xFFFF ∧
      (vm.ExecuteStep tty =
        (vm.ReadMemory tty vm.registers.PC) >>= fun r =>
          (r.2.1.setPC (vm.registers.PC + 1)).executeInstruction r.2.2 r.1) ∧
      (VM.Execute (fuel + 1) vm tty =
        (vm.ExecuteStep tty) >>= fun r => VM.Execute fuel r.1 r.2)) := by
  refine ⟨fun h => ?_, fun vm' tty' h => Execute_returns_at_top fuel _ _ _ _ h, fun h => ?_⟩
  · apply Execute_of_guard_fails
    rw [h]
    decide
  · refine ⟨by omega, ExecuteStep_no_wrap vm tty h, ?_⟩
    have h' : vm.registers.PC < memoryLen := h
    conv => lhs; unfold VM.Execute
    rw [if_pos h']

/-- Witness for C15 (amended): the state the sample state is in once `PC = 0xFFFF`. -/
theorem run_loop_guard_witness :
    (sampleVM.setPC 0xFFFF).registers.PC = 0xFFFF ∧
    VM.Execute 3 (sampleVM.setPC 0xFFFF) quietConsole =
      .ok (true, sampleVM.setPC 0xFFFF, quietConsole) :=
  ⟨rfl, (run_loop_guard 3 (sampleVM.setPC 0xFFFF) quietConsole).1 rfl⟩

/-! ## Stores: claim C20 -/

/-- The state after a store of `value` at `address`. -/
theorem store_frame (vm : VM) (address value : Nat) (h : address < memoryLen) :
    ∃ vm', vm.WriteMemory address value = .ok vm' ∧ vm'.registers = vm.registers ∧
      vm'.memory address = value ∧ ∀ a, a ≠ address → vm'.memory a = vm.memory a := by
  rw [WriteMemory_of_lt vm address value h]
  refine ⟨_, rfl, rfl, ?_, fun a ha => ?_⟩
  · simp only [if_true]
  · simp only [if_neg ha]

/-- Stores whose addresses are words of the memory array touch only their target word:
`ST`, `STR` and `STI` with the effective address (and for `STI` the pointer address,
which is not `0xFE00`) below `0xFFFF` complete without console traffic, leave the
register file unchanged and change memory only at the effective address, which
afterwards holds the register named in bits 11..9. -/
theorem stores_touch_only_target (instruction : Nat) (vm : VM) (tty : Console)
    (hword : instruction < 65536) :
    (bits instruction 15 12 = 3 →
      (vm.registers.PC + signExtend (bits instruction 8 0) 9) % 65536 < 0xFFFF →
      ∃ vm', vm.executeInstruction tty instruction = .ok (vm', tty) ∧
        vm'.registers = vm.registers ∧
        vm'.memory ((vm.registers.PC + signExtend (bits instruction 8 0) 9) % 65536) =
          vm.registers.regs (bits instruction 11 9) ∧
        ∀ a, a ≠ (vm.registers.PC + signExtend (bits instruction 8 0) 9) % 65536 →
          vm'.memory a = vm.memory a) ∧
    (bits instruction 15 12 = 7 →
      (vm.registers.regs (bits instruction 8 6) +
        signExtend (bits instruction 5 0) 6) % 65536 < 0xFFFF →
      ∃ vm', vm.executeInstruction tty instruction = .ok (vm', tty) ∧
        vm'.registers = vm.registers ∧
        vm'.memory ((vm.registers.regs (bits instruction 8 6) +
            signExtend (bits instruction 5 0) 6) % 65536) =
          vm.registers.regs (bits instruction 11 9) ∧
        ∀ a, a ≠ (vm.registers.regs (bits instruction 8 6) +
            signExtend (bits instruction 5 0) 6) % 65536 →
          vm'.memory a = vm.memory a) ∧
    (bits instruction 15 12 = 11 →
      (vm.registers.PC + signExtend (bits instruction 8 0) 9) % 65536 ≠ 0xFE00 →
      (vm.registers.PC + signExtend (bits instruction 8 0) 9) % 65536 < 0xFFFF →
      vm.memory ((vm.registers.PC + signExtend (bits instruction 8 0) 9) % 65536) < 0xFFFF →
      ∃ vm', vm.executeInstruction tty instruction = .ok (vm', tty) ∧
        vm'.registers = vm.registers ∧
        vm'.memory
            (vm.memory ((vm.registers.PC + signExtend (bits instruction 8 0) 9) % 65536)) =
          vm.registers.regs (bits instruction 11 9) ∧
        ∀ a, a ≠ vm.memory
              ((vm.registers.PC + signExtend (bits instruction 8 0) 9) % 65536) →
          vm'.memory a = vm.memory a) := by
  refine ⟨fun hop hea => ?_, fun hop hea => ?_, fun hop hk hp hea => ?_⟩
  · obtain ⟨vm', h1, h2, h3, h4⟩ := store_frame vm _ (vm.registers.regs (bits instruction 11 9)) hea
    rw [executeInstruction_st _ _ _ hword hop, st_eq, h1, map_ok_eq]
    exact ⟨vm', rfl, h2, h3, h4⟩
  · obtain ⟨vm', h1, h2, h3, h4⟩ := store_frame vm _ (vm.registers.regs (bits instruction 11 9)) hea
    rw [executeInstruction_str _ _ _ hword hop, str_eq, h1, map_ok_eq]
    exact ⟨vm', rfl, h2, h3, h4⟩
  · obtain ⟨vm', h1, h2, h3, h4⟩ := store_frame vm _ (vm.registers.regs (bits instruction 11 9)) hea
    rw [executeInstruction_sti _ _ _ hword hop, sti_eq, ReadMemory_of_plain vm tty _ hk hp,
      bind_ok_eq]
    simp only
    rw [h1, bind_ok_eq]
    exact ⟨vm', rfl, h2, h3, h4⟩

/-- C20 (the code departs from the claim).  `STR R0, R1, #0` (word `0x7040`) executed with
`R1 = 0xFFFF` has the effective address `0xFFFF`; the claim has the store complete and
leave the value of `R0` in that word, but the word is outside the 65535-word memory
array and the store ends in the run-time fault
`index out of range [65535] with length 65535`. -/
theorem str_at_top_address_faults :
    bits 0x7040 15 12 = 7 ∧
    (wrapVM.registers.regs (bits 0x7040 8 6) + signExtend (bits 0x7040 5 0) 6) % 65536
      = 0xFFFF ∧
    wrapVM.executeInstruction quietConsole 0x7040 = .error (.indexOutOfRange 0xFFFF 65535) :=
  ⟨by decide, by decide, rfl⟩

/-! ## The string traps: claims C12 and C18 -/

theorem print_nil (tty : Console) : tty.print [] = tty := by
  simp [Console.print]

theorem print_print (tty : Console) (xs ys : List Nat) :
    (tty.print xs).print ys = tty.print (xs ++ ys) := by
  simp [Console.print]

theorem fmtC_uint16 (c : Nat) (hc : c < 65536) :
    fmtC c = if 0xD800 ≤ c ∧ c ≤ 0xDFFF then 0xFFFD else c := by
  unfold fmtC
  by_cases h : 0xD800 ≤ c ∧ c ≤ 0xDFFF
  · rw [if_pos (Or.inr h), if_pos h]
  · rw [if_neg (by omega), if_neg h]

theorem fmtC_byte (c : Nat) (hc : c < 256) : fmtC c = c := by
  unfold fmtC
  rw [if_neg (by omega)]

theorem trap_puts (instruction : Nat) (vm : VM) (tty : Console)
    (hcode : bits instruction 7 0 = 0x22) :
    trap instruction vm tty =
      (vm.ReadMemoryLogged tty [] (vm.registers.regs 0)) >>= fun r =>
        putsLoop (memoryLen + 1) r.2.1 r.2.2.1 r.2.2.2 (vm.registers.regs 0) r.1 := by
  rw [← field_7_0] at hcode
  unfold trap
  simp only [hcode, Get_zero, bind_ok_eq]
  rfl

theorem trap_putsp (instruction : Nat) (vm : VM) (tty : Console)
    (hcode : bits instruction 7 0 = 0x24) :
    trap instruction vm tty =
      (vm.ReadMemoryLogged tty [] (vm.registers.regs 0)) >>= fun r =>
        putspLoop (memoryLen + 1) r.2.1 r.2.2.1 r.2.2.2 (vm.registers.regs 0) r.1 := by
  rw [← field_7_0] at hcode
  unfold trap
  simp only [hcode, Get_zero, bind_ok_eq]
  rfl

theorem putsLoop_string (vm : VM) (n : Nat) : ∀ (fuel a : Nat) (tty : Console)
    (log : List Nat), n ≤ fuel → a + n < memoryLen →
    (∀ i, 1 ≤ i → i ≤ n → a + i ≠ register.Kbsr) →
    (∀ i, i < n → vm.memory (a + i) ≠ 0) → vm.memory (a + n) = 0 →
    putsLoop fuel vm tty log a (vm.memory a) =
      .ok (vm, tty.print ((stringAt vm a n).map fmtC), log ++ List.range' (a + 1) n) := by
  induction n with
  | zero =>
    intro fuel a tty log _ _ _ _ hnul
    unfold putsLoop
    rw [Nat.add_zero] at hnul
    rw [if_neg (fun h => h hnul), pure_eq]
    simp [stringAt, print_nil]
  | succ n ih =>
    intro fuel a tty log hfuel hfit hkb hchars hnul
    have hm : memoryLen = 65535 := rfl
    have hc : vm.memory a ≠ 0 := by
      have := hchars 0 (Nat.succ_pos n)
      rwa [Nat.add_zero] at this
    have hnext : (a + 1) % 65536 = a + 1 := Nat.mod_eq_of_lt (by omega)
    obtain ⟨f, rfl⟩ : ∃ f, fuel = f + 1 := ⟨fuel - 1, by omega⟩
    unfold putsLoop
    rw [if_pos hc]
    simp only
    rw [hnext, ReadMemoryLogged_of_plain vm _ _ (a + 1) (hkb 1 (Nat.le_refl 1) (by omega))
      (by omega), bind_ok_eq]
    simp only
    rw [ih f (a + 1) _ _ (by omega) (by omega)
      (fun i h1 h2 => by
        have := hkb (i + 1) (by omega) (by omega)
        rwa [Nat.add_assoc, Nat.add_comm 1 i])
      (fun i hi => by
        have := hchars (i + 1) (by omega)
        rwa [Nat.add_assoc, Nat.add_comm 1 i])
      (by rwa [Nat.add_assoc, Nat.add_comm 1 n])]
    simp [stringAt, print_print, List.range'_succ]

theorem stringAt_lt (vm : VM) (hwf : WF vm) (n : Nat) : ∀ a c, c ∈ stringAt vm a n → c < 65536 := by
  induction n with
  | zero =>
    intro a c hc
    simp [stringAt] at hc
  | succ n ih =>
    intro a c hc
    simp only [stringAt, List.mem_cons] at hc
    rcases hc with rfl | hc
    · exact hwf.2.2.2 a
    · exact ih _ _ hc

/-- C12, counterexample.  With `R0 = 0x4000` and `memory[0x4000 ..] = 0x0048, 0xDFFF,
0x0049, 0x0000` the three words before the zero word are not zero and the range neither
wraps nor contains `0xFE00`, so the claim has `TRAP 0x22` write the character codes
`0x48, 0xDFFF, 0x49`; the code writes `0x48, 0xFFFD, 0x49`: `%c` turns the surrogate
`0xDFFF` into the replacement character. -/
theorem puts_replaces_surrogate :
    bits 0xF022 15 12 = 15 ∧ bits 0xF022 7 0 = 0x22 ∧
    surrogateVM.registers.regs 0 = 0x4000 ∧
    stringAt surrogateVM 0x4000 3 = [0x48, 0xDFFF, 0x49] ∧
    surrogateVM.memory (0x4000 + 3) = 0 ∧
    surrogateVM.executeInstruction quietConsole 0xF022 =
      .ok (surrogateVM, { stdin := [], stdout := [0x48, 0xFFFD, 0x49], stderr := 0 }) ∧
    [0x48, 0xFFFD, 0x49] ≠ stringAt surrogateVM 0x4000 3 :=
  ⟨by decide, by decide, rfl, rfl, rfl, rfl, by decide⟩

/-- C12, amended.  For every well-formed state with `R0 = a` in which the words
`memory[a .. a+n-1]` are not zero and `memory[a+n]` is zero, with `a + n ≤ 0xFFFE` and
the range `a .. a+n` not containing `0xFE00`, every `TRAP` word with low byte `0x22`
completes; it appends to the standard output, for each of the `n` words in order, the
word itself, or `0xFFFD` when the word lies in `0xD800..0xDFFF`, and nothing else; it
consumes no input, writes nothing to standard error and leaves registers, `PC`,
condition code and memory unchanged; and the calls of `ReadMemory` it makes are, in
order, exactly those at the addresses `a, a+1, .., a+n`. -/
theorem puts_prints_string (instruction : Nat) (vm : VM) (tty : Console) (a n : Nat)
    (hword : instruction < 65536) (hop : bits instruction 15 12 = 15)
    (hcode : bits instruction 7 0 = 0x22) (hwf : WF vm)
    (hr0 : vm.registers.regs 0 = a) (hfit : a + n ≤ 0xFFFE)
    (hkb : ∀ i, i ≤ n → a + i ≠ 0xFE00)
    (hchars : ∀ i, i < n → vm.memory (a + i) ≠ 0) (hnul : vm.memory (a + n) = 0) :
    vm.executeInstruction tty instruction =
      .ok (vm,
        { stdin := tty.stdin,
          stdout := tty.stdout ++ (stringAt vm a n).map
            (fun c => if 0xD800 ≤ c ∧ c ≤ 0xDFFF then 0xFFFD else c),
          stderr := tty.stderr }) ∧
    trap instruction vm tty =
      .ok (vm,
        { stdin := tty.stdin,
          stdout := tty.stdout ++ (stringAt vm a n).map
            (fun c => if 0xD800 ≤ c ∧ c ≤ 0xDFFF then 0xFFFD else c),
          stderr := tty.stderr },
        List.range' a (n + 1)) := by
  have hm : memoryLen = 65535 := rfl
  have hmap : (stringAt vm a n).map fmtC = (stringAt vm a n).map
      (fun c => if 0xD800 ≤ c ∧ c ≤ 0xDFFF then 0xFFFD else c) :=
    List.map_congr_left (fun c hc => fmtC_uint16 c (stringAt_lt vm hwf n a c hc))
  have htrap : trap instruction vm tty =
      .ok (vm, tty.print ((stringAt vm a n).map fmtC), List.range' a (n + 1)) := by
    rw [trap_puts instruction vm tty hcode, hr0,
      ReadMemoryLogged_of_plain vm tty [] a (by simpa using hkb 0 (Nat.zero_le n)) (by omega),
      bind_ok_eq]
    simp only
    rw [putsLoop_string vm n (memoryLen + 1) a tty _ (by omega) (by omega)
      (fun i _ hi => hkb i hi) hchars hnul]
    simp [List.range'_succ]
  rw [hmap] at htrap
  refine ⟨?_, htrap⟩
  rw [executeInstruction_trap _ _ _ hword hop, htrap]
  rfl
theorem hiVM_WF : WF hiVM := by
  refine ⟨fun j => ?_, by decide, by decide, fun a => ?_⟩
  · show (if j = 0 then 0x4000 else 0) < 65536
    split <;> decide
  · show (if a = 0x4000 then 0x48 else if a = 0x4001 then 0x49 else 0) < 65536
    split
    · decide
    · split <;> decide

/-- Witness for C12: `memory[0x4000 ..] = 0x0048, 0x0049, 0x0000` with `R0 = 0x4000`;
`TRAP 0x22` (word `0xF022`) prints `HI` and reads `0x4000, 0x4001, 0x4002`. -/
theorem puts_prints_string_witness :
    (0xF022 < 65536 ∧ bits 0xF022 15 12 = 15 ∧ bits 0xF022 7 0 = 0x22 ∧
      hiVM.registers.regs 0 = 0x4000 ∧ 0x4000 + 2 ≤ 0xFFFE ∧
      hiVM.memory 0x4000 = 0x48 ∧ hiVM.memory 0x4001 = 0x49 ∧ hiVM.memory 0x4002 = 0) ∧
    (hiVM.executeInstruction quietConsole 0xF022 =
        .ok (hiVM, { stdin := [], stdout := [0x48, 0x49], stderr := 0 }) ∧
      trap 0xF022 hiVM quietConsole =
        .ok (hiVM, { stdin := [], stdout := [0x48, 0x49], stderr := 0 },
          [0x4000, 0x4001, 0x4002])) :=
  ⟨by decide,
    puts_prints_string 0xF022 hiVM quietConsole 0x4000 2 (by decide) (by decide) (by decide)
      hiVM_WF rfl (by decide) (fun i hi => by omega)
      (fun i hi => by
        interval_cases i
        · show (0x48 : Nat) ≠ 0
          decide
        · show (0x49 : Nat) ≠ 0
          decide)
      rfl⟩

theorem low_byte (c : Nat) : c &&& 0xFF = c % 256 := by
  rw [field_7_0]
  simp [bits]

theorem high_byte (c : Nat) : c >>> 8 = c / 256 := by
  rw [Nat.shiftRight_eq_div_pow]

theorem putspLoop_string (vm : VM) (hwf : WF vm) (n : Nat) : ∀ (fuel a : Nat) (tty : Console)
    (log : List Nat), n ≤ fuel → a + n < memoryLen →
    (∀ i, 1 ≤ i → i ≤ n → a + i ≠ register.Kbsr) →
    (∀ i, i < n → vm.memory (a + i) ≠ 0) → vm.memory (a + n) = 0 →
    putspLoop fuel vm tty log a (vm.memory a) =
      .ok (vm, tty.print (unpack (stringAt vm a n)), log ++ List.range' (a + 1) n) := by
  induction n with
  | zero =>
    intro fuel a tty log _ _ _ _ hnul
    unfold putspLoop
    rw [Nat.add_zero] at hnul
    rw [if_neg (fun h => h hnul), pure_eq]
    simp [stringAt, unpack, print_nil]
  | succ n ih =>
    intro fuel a tty log hfuel hfit hkb hchars hnul
    have hm : memoryLen = 65535 := rfl
    have hc : vm.memory a ≠ 0 := by
      have := hchars 0 (Nat.succ_pos n)
      rwa [Nat.add_zero] at this
    have hlt : vm.memory a < 65536 := hwf.2.2.2 a
    have hnext : (a + 1) % 65536 = a + 1 := Nat.mod_eq_of_lt (by omega)
    obtain ⟨f, rfl⟩ : ∃ f, fuel = f + 1 := ⟨fuel - 1, by omega⟩
    unfold putspLoop
    rw [if_pos hc]
    simp only
    rw [hnext, ReadMemoryLogged_of_plain vm _ _ (a + 1) (hkb 1 (Nat.le_refl 1) (by omega))
      (by omega), bind_ok_eq]
    simp only
    rw [ih f (a + 1) _ _ (by omega) (by omega)
      (fun i h1 h2 => by
        have := hkb (i + 1) (by omega) (by omega)
        rwa [Nat.add_assoc, Nat.add_comm 1 i])
      (fun i hi => by
        have := hchars (i + 1) (by omega)
        rwa [Nat.add_assoc, Nat.add_comm 1 i])
      (by rwa [Nat.add_assoc, Nat.add_comm 1 n])]
    rw [low_byte, high_byte, fmtC_byte _ (Nat.mod_lt _ (by decide)),
      fmtC_byte (vm.memory a / 256) (by omega)]
    by_cases hh : vm.memory a / 256 ≠ 0
    · simp [stringAt, unpack, print_print, if_pos hh, List.range'_succ]
    · simp [stringAt, unpack, print_print, if_neg hh, List.range'_succ]

/-- Packed strings that end inside the memory array are printed by `TRAP 0x24` in full:
with `a + n ≤ 0xFFFE` the trap completes, appends for each of the `n` non-zero words
in order its low byte followed by its high byte when that is not zero, consumes no
input and leaves the state unchanged. -/
theorem putsp_prints_packed_string (instruction : Nat) (vm : VM) (tty : Console) (a n : Nat)
    (hword : instruction < 65536) (hop : bits instruction 15 12 = 15)
    (hcode : bits instruction 7 0 = 0x24) (hwf : WF vm)
    (hr0 : vm.registers.regs 0 = a) (hfit : a + n ≤ 0xFFFE)
    (hkb : ∀ i, i ≤ n → a + i ≠ 0xFE00)
    (hchars : ∀ i, i < n → vm.memory (a + i) ≠ 0) (hnul : vm.memory (a + n) = 0) :
    vm.executeInstruction tty instruction =
      .ok (vm,
        { stdin := tty.stdin,
          stdout := tty.stdout ++ unpack (stringAt vm a n),
          stderr := tty.stderr }) := by
  have hm : memoryLen = 65535 := rfl
  rw [executeInstruction_trap _ _ _ hword hop, trap_putsp instruction vm tty hcode, hr0,
    ReadMemoryLogged_of_plain vm tty [] a (by simpa using hkb 0 (Nat.zero_le n)) (by omega),
    bind_ok_eq]
  simp only
  rw [putspLoop_string vm hwf n (memoryLen + 1) a tty _ (by omega) (by omega)
    (fun i _ hi => hkb i hi) hchars hnul]
  rfl

/-- The packed string `0x4948, 0x0021, 0x0000` at `0x4000` is printed by `TRAP 0x24` as
`HI!`. -/
theorem putsp_prints_hi :
    packedVM.executeInstruction quietConsole 0xF024 =
      .ok (packedVM, { stdin := [], stdout := [0x48, 0x49, 0x21], stderr := 0 }) :=
  rfl

/-- C18 (the code departs from the claim).  With `R0 = 0xFFFE` and the non-zero word
`memory[0xFFFE] = 0x0041` the string's terminating word is at `0xFFFF`: the range
`0xFFFE .. 0xFFFF` neither wraps nor contains `0xFE00`, and the claim has `TRAP 0x24`
print the one word and stop at the zero word.  The memory array has no word `0xFFFF`:
after printing, the next `ReadMemory(0xFFFF)` ends in the run-time fault
`index out of range [65535] with length 65535`; `TRAP 0x22` does the same. -/
theorem putsp_at_top_address_faults :
    bits 0xF024 15 12 = 15 ∧ bits 0xF024 7 0 = 0x24 ∧
    topStringVM.registers.regs 0 = 0xFFFE ∧ topStringVM.memory 0xFFFE = 0x41 ∧
    0xFFFE + 1 ≤ 0xFFFF ∧ 0xFFFE ≠ 0xFE00 ∧ 0xFFFE + 1 ≠ 0xFE00 ∧
    topStringVM.executeInstruction quietConsole 0xF024 =
      .error (.indexOutOfRange 0xFFFF 65535) ∧
    topStringVM.executeInstruction quietConsole 0xF022 =
      .error (.indexOutOfRange 0xFFFF 65535) :=
  ⟨by decide, by decide, rfl, rfl, by decide, by decide, by decide, rfl, rfl⟩

end Elshi
